import Mathlib

/-!
# Verification of the plone-codemod migration engine

A shallow embedding, in Lean 4, of the core rewriting components of the
`plone_codemod` package:

* the text-pattern rewriter (`zcml_migrator.py`, `pt_migrator.py`),
* the mapping-table loader and the libcst-based structured source rewriter
  (`import_migrator.py`),
* the namespace-declaration normalizer (`namespace_migrator.py`),
* the packaging-metadata migrator (`packaging_migrator.py`).

Python strings are modelled as `List Char` where character-level induction
is needed (text rewriting, line splitting, regex-like matchers) and as
`String` where only whole-token comparison occurs (packaging metadata).
Python `dict`s are modelled as association lists with insert-or-replace
update, mirroring insertion-order semantics.  Fallible/`None`-returning
code returns `Option`.  Every definition is translated from the source
file named in its doc comment.
-/

namespace PloneCodemod

/-- Shorthand: the character list of a string literal. -/
abbrev chars (s : String) : List Char := s.toList

/-! ## Python string primitives -/

/-- The whitespace characters recognized by Python's `str.strip()` and the
regex class `\s` (ASCII range; exotic Unicode whitespace is not modelled,
no input in this development contains any). -/
def pyIsSpace (c : Char) : Bool :=
  c = ' ' || c = '\t' || c = '\n' || c = '\r' || c = '\x0b' || c = '\x0c'

/-- Python `s.strip()`: remove leading and trailing whitespace. -/
def pyStrip (s : List Char) : List Char :=
  ((s.dropWhile pyIsSpace).reverse.dropWhile pyIsSpace).reverse

/-- Python `s.strip("\n")`: remove leading and trailing newline characters
only. -/
def pyStripNL (s : List Char) : List Char :=
  ((s.dropWhile (· = '\n')).reverse.dropWhile (· = '\n')).reverse

/-- Auxiliary recursion for `pyReplace`, with fuel.  One unit of fuel is
spent per step; since every step consumes at least one character of the
remaining input (for a non-empty pattern), fuel equal to the input length
is always sufficient. -/
def pyReplaceAux (old new : List Char) : Nat → List Char → List Char
  | 0, s => s
  | _ + 1, [] => []
  | fuel + 1, c :: cs =>
    if old.isPrefixOf (c :: cs) then
      new ++ pyReplaceAux old new fuel ((c :: cs).drop old.length)
    else
      c :: pyReplaceAux old new fuel cs

/-- Python `s.replace(old, new)`: replace every non-overlapping occurrence
of `old` in `s` by `new`, scanning left to right.  For the empty pattern
Python inserts `new` before every character and at the end. -/
def pyReplace (s old new : List Char) : List Char :=
  if old = [] then new ++ s.flatMap (fun c => c :: new)
  else pyReplaceAux old new s.length s

/-! ## Association lists as Python dicts

`dictInsert` mirrors `d[k] = v` on a Python dict: if the key is present its
value is replaced in place (keeping its position), otherwise the pair is
appended, preserving insertion order. -/

/-- Python `d[k] = v` on a dict modelled as an association list. -/
def dictInsert {α β : Type} [BEq α] (k : α) (v : β) :
    List (α × β) → List (α × β)
  | [] => [(k, v)]
  | (k₀, v₀) :: t => if k₀ == k then (k₀, v) :: t else (k₀, v₀) :: dictInsert k v t

/-! ## Text-pattern rewriter (`zcml_migrator.py`, `pt_migrator.py`)

A replacement pair `(old_literal, new_literal)` is a pair of character
lists.  `_build_replacements` sorts pairs by decreasing length of the old
literal using Python's stable sort; `migrate_zcml_content`,
`migrate_genericsetup_content`, `migrate_pt_content` and
`migrate_bootstrap_content` fold `str.replace` over their pair lists. -/

/-- A text replacement pair `(old_literal, new_literal)`. -/
abbrev ReplPair := List Char × List Char

/-- Stable insertion of a pair into a list sorted by decreasing old-literal
length: the new pair goes after every pair whose old literal is at least as
long, mirroring the stability of Python's `list.sort`. -/
def insertByLenDesc (p : ReplPair) : List ReplPair → List ReplPair
  | [] => [p]
  | q :: qs =>
    if q.1.length < p.1.length then p :: q :: qs else q :: insertByLenDesc p qs

/-- Stable sort by decreasing old-literal length, mirroring
`pairs.sort(key=lambda p: len(p[0]), reverse=True)`. -/
def sortByLenDesc : List ReplPair → List ReplPair
  | [] => []
  | p :: ps => insertByLenDesc p (sortByLenDesc ps)

/-- `zcml_migrator._build_replacements`: build replacement pairs from config
entries, sorted longest old literal first. -/
def buildReplacements (entries : List ReplPair) : List ReplPair :=
  sortByLenDesc entries

/-- `zcml_migrator.migrate_zcml_content`: fold `str.replace` over the
replacement pairs in order. -/
def migrateZcmlContent (content : List Char) (replacements : List ReplPair) :
    List Char :=
  replacements.foldl (fun result p => pyReplace result p.1 p.2) content

/-- `pt_migrator.migrate_pt_content`: fold `str.replace` over the entries in
the order they are listed. -/
def migratePtContent (content : List Char) (replacements : List ReplPair) :
    List Char :=
  replacements.foldl (fun result p => pyReplace result p.1 p.2) content

/-- `pt_migrator.migrate_bootstrap_content`: apply the data-attribute pairs,
then the CSS-class pairs, each in the order they are listed (no sorting). -/
def migrateBootstrapContent (content : List Char)
    (dataAttributes cssClasses : List ReplPair) : List Char :=
  let result := dataAttributes.foldl (fun result p => pyReplace result p.1 p.2) content
  cssClasses.foldl (fun result p => pyReplace result p.1 p.2) result

/-! ## Mapping table loader and structured source rewriter
(`import_migrator.py`)

Python identifiers and dotted module paths are modelled as `List Char`
(`Ident`).  A dotted module expression of the concrete syntax tree
(`cst.Attribute` chains over `cst.Name`s) is modelled by its list of
segments; `dottedOf` mirrors `PloneImportMigrator._dotted` (joining with
`.`) and `splitDots` mirrors `_build_module`'s `dotted.split(".")`. -/

/-- A Python identifier / dotted path, as a character list. -/
abbrev Ident := List Char

/-- `import_migrator.ImportMapping`. -/
structure ImportMapping where
  old_module : Ident
  old_name : Ident
  new_module : Ident
  new_name : Ident
deriving DecidableEq, Repr

/-- Python `s.split(c)` for a single-character separator: always returns a
non-empty list; `""` splits to `[""]`. -/
def splitOnChar (c : Char) : List Char → List (List Char)
  | [] => [[]]
  | x :: xs =>
    if x = c then [] :: splitOnChar c xs
    else
      match splitOnChar c xs with
      | [] => [[x]]
      | y :: ys => (x :: y) :: ys

/-- Join segments with a separator character: the inverse of `splitOnChar`
on dot-free segments.  `joinDots segs` with a `'.'` separator mirrors both
`_dotted` (which joins attribute chains with `"."`) and the reading-off of
a dotted module string. -/
def joinWithChar (c : Char) : List (List Char) → List Char
  | [] => []
  | [s] => s
  | s :: rest => s ++ c :: joinWithChar c rest

/-- The dotted string of a module node's segments
(`PloneImportMigrator._dotted`). -/
def dottedOf (segs : List Ident) : Ident :=
  joinWithChar '.' segs

/-- `dotted.split(".")` as used by `PloneImportMigrator._build_module`. -/
def splitDots (s : Ident) : List Ident :=
  splitOnChar '.' s

/-- Python `s.rsplit(".", 1)`: split at the last dot.  Returns `none` when
the string contains no dot (Python then returns a one-element list, which
`load_mappings` skips). -/
def rsplitDot (s : Ident) : Option (Ident × Ident) :=
  if '.' ∈ s then
    let revName := s.reverse.takeWhile (· ≠ '.')
    some ((s.take (s.length - revName.length - 1)), revName.reverse)
  else none

/-- `import_migrator.load_mappings`: build `ImportMapping`s from config
entries `{old, new}`, silently skipping entries whose old or new dotted
path cannot be split into `(module, name)`. -/
def loadMappings (entries : List (Ident × Ident)) : List ImportMapping :=
  entries.filterMap fun e =>
    match rsplitDot e.1, rsplitDot e.2 with
    | some (om, oname), some (nm, nn) =>
      some { old_module := om, old_name := oname, new_module := nm, new_name := nn }
    | _, _ => none

/-- The `(old_module, old_name) → ImportMapping` dict built in
`PloneImportMigrator.__init__` (`self._lookup[...] = mp` in list order, so
a later entry with the same key overwrites an earlier one). -/
def buildLookup (ms : List ImportMapping) : List ((Ident × Ident) × ImportMapping) :=
  ms.foldl (fun d mp => dictInsert (mp.old_module, mp.old_name) mp d) []

/-- `self._lookup.get((module, name))`. -/
def lookupMp (ms : List ImportMapping) (module name : Ident) : Option ImportMapping :=
  (buildLookup ms).lookup (module, name)

/-- A `cst.ImportAlias`: the imported name and the optional `as` alias.
(In a parseable `from … import …` statement the imported name is always a
plain `cst.Name`, so the `not isinstance(alias.name, cst.Name)` branch of
the source is unreachable and the name is modelled as an identifier.) -/
structure ImportAlias where
  name : Ident
  asname : Option Ident
deriving DecidableEq, Repr

/-- An expression of the concrete syntax tree, restricted to the node
shapes the rewriter's behaviour depends on.  `cst.Attribute.attr` and the
keyword of a `cst.Arg` are themselves `cst.Name` nodes in libcst, so they
are carried as identifiers that `leave_Name` visits. -/
inductive Expr where
  /-- A `cst.Name` identifier reference. -/
  | name (value : Ident)
  /-- A `cst.Attribute`; `attrName` is the value of its `attr` Name node. -/
  | attr (value : Expr) (attrName : Ident)
  /-- A call with one positional argument. -/
  | call1 (func : Expr) (arg : Expr)
  /-- A call with one keyword argument; `kwName` is the value of the
  keyword's Name node. -/
  | callKw (func : Expr) (kwName : Ident) (kwArg : Expr)
  /-- A string literal (no Name inside). -/
  | strLit (s : Ident)
deriving DecidableEq, Repr

/-- One `cst.SimpleStatementLine` with a single statement in its body. -/
inductive PStmt where
  /-- `from <dotted module> import <names>` with a dotted module
  (`_dotted` succeeds). -/
  | importFrom (module : List Ident) (names : List ImportAlias)
  /-- `from <dotted module> import *`. -/
  | importStar (module : List Ident)
  /-- A `from … import …` whose module is not a dotted name
  (e.g. a relative import): `_dotted` returns `None`. -/
  | importFromRel (names : List ImportAlias)
  /-- Any other simple statement; its expression is visited by
  `leave_Name`. -/
  | exprStmt (e : Expr)
deriving DecidableEq, Repr

/-- The per-file rename table `self._renames` (`old_name → new_name`). -/
abbrev Renames := List (Ident × Ident)

/-- The effect of `leave_Name` on one identifier. -/
def applyRename (r : Renames) (s : Ident) : Ident :=
  match r.lookup s with
  | some n => n
  | none => s

/-- `leave_Name` applied to every Name node of an expression: identifier
references, attribute names and keyword-argument names are all `cst.Name`
children and all get renamed. -/
def renameExpr (r : Renames) : Expr → Expr
  | .name v => .name (applyRename r v)
  | .attr e a => .attr (renameExpr r e) (applyRename r a)
  | .call1 f a => .call1 (renameExpr r f) (renameExpr r a)
  | .callKw f k a => .callKw (renameExpr r f) (applyRename r k) (renameExpr r a)
  | .strLit s => .strLit s

/-- `leave_Name` applied to every Name node of one statement line (module
segments, imported names and `as` names are all Name children). -/
def renameStmt (r : Renames) : PStmt → PStmt
  | .importFrom m ns =>
    .importFrom (m.map (applyRename r))
      (ns.map fun a => ⟨applyRename r a.name, a.asname.map (applyRename r)⟩)
  | .importStar m => .importStar (m.map (applyRename r))
  | .importFromRel ns =>
    .importFromRel (ns.map fun a => ⟨applyRename r a.name, a.asname.map (applyRename r)⟩)
  | .exprStmt e => .exprStmt (renameExpr r e)

/-- `PloneImportMigrator.visit_ImportFrom`: record a usage-site rename for
every unaliased imported name whose mapping changes the name. -/
def visitStmt (ms : List ImportMapping) (r : Renames) : PStmt → Renames
  | .importFrom m ns =>
    ns.foldl
      (fun r al =>
        match lookupMp ms (dottedOf m) al.name with
        | some mp =>
          if mp.new_name ≠ mp.old_name ∧ al.asname = none then
            dictInsert al.name mp.new_name r
          else r
        | none => r)
      r
  | _ => r

/-- The `migrated` defaultdict of `leave_SimpleStatementLine`: group the
new aliases by target module, in first-occurrence order, appending within a
group. -/
def groupInsert (k : Ident) (v : ImportAlias) :
    List (Ident × List ImportAlias) → List (Ident × List ImportAlias)
  | [] => [(k, [v])]
  | (k₀, vs) :: t =>
    if k₀ = k then (k₀, vs ++ [v]) :: t else (k₀, vs) :: groupInsert k v t

/-- Build the `migrated` groups from the original alias list. -/
def groupMigrated (ms : List ImportMapping) (module : Ident)
    (ns : List ImportAlias) : List (Ident × List ImportAlias) :=
  ns.foldl
    (fun acc al =>
      match lookupMp ms module al.name with
      | some mp => groupInsert mp.new_module ⟨mp.new_name, al.asname⟩ acc
      | none => acc)
    []

/-- Stable insertion sort of the grouped target modules, mirroring
`sorted(migrated.keys())` (lexicographic, and the keys are distinct). -/
def insortGroups (p : Ident × List ImportAlias) :
    List (Ident × List ImportAlias) → List (Ident × List ImportAlias)
  | [] => [p]
  | q :: qs => if p.1 < q.1 then p :: q :: qs else q :: insortGroups p qs

/-- Sort the grouped target modules lexicographically. -/
def sortGroups : List (Ident × List ImportAlias) → List (Ident × List ImportAlias)
  | [] => []
  | p :: ps => insortGroups p (sortGroups ps)

/-- `PloneImportMigrator.leave_SimpleStatementLine`: rewrite one statement
line given the original node and the updated node (the original with
`leave_Name` renames already applied), returning the list of replacement
lines.  Trailing-comma cleanup and `leading_lines` are concrete-syntax
formatting and are not modelled. -/
def leaveStmt (ms : List ImportMapping) (orig updated : PStmt) : List PStmt :=
  match orig with
  | .importFrom m ns =>
    let M := dottedOf m
    if ns.any fun al => (lookupMp ms M al.name).isSome then
      let kept := ns.filter fun al => (lookupMp ms M al.name).isNone
      let migrated := sortGroups (groupMigrated ms M ns)
      (if kept.isEmpty then [] else [PStmt.importFrom m kept]) ++
        migrated.map fun g => PStmt.importFrom (splitDots g.1) g.2
    else [updated]
  | .importStar m =>
    match ms.find? (fun mp => mp.old_module = dottedOf m) with
    | some mp => [PStmt.importStar (splitDots mp.new_module)]
    | none => [updated]
  | .importFromRel _ => [updated]
  | .exprStmt _ => [updated]

/-- One depth-first pass of the codemod over the statement lines of a
module: for each line, `visit_ImportFrom` fires before the line's Name
children are visited, so the updated node is the original renamed with the
rename table as extended by this very line; the rename table then carries
over to the following lines. -/
def transformStmts (ms : List ImportMapping) : Renames → List PStmt → List PStmt
  | _, [] => []
  | r, s :: rest =>
    let r' := visitStmt ms r s
    leaveStmt ms s (renameStmt r' s) ++ transformStmts ms r' rest

/-- `import_migrator.transform_code`, at the syntax-tree level: visit a
parsed module with a fresh rename table (`visit_Module` resets it).  libcst
renders an unchanged tree byte-identically, so tree equality models
byte-for-byte equality of source text. -/
def transformCode (ms : List ImportMapping) (stmts : List PStmt) : List PStmt :=
  transformStmts ms [] stmts

/-- All Name-node values occurring in an expression, in visit order:
identifier references, attribute names and keyword-argument names. -/
def nameTokens : Expr → List Ident
  | .name v => [v]
  | .attr e a => nameTokens e ++ [a]
  | .call1 f a => nameTokens f ++ nameTokens a
  | .callKw f k a => nameTokens f ++ [k] ++ nameTokens a
  | .strLit _ => []

/-- The shape of an expression with every Name-node value erased: what a
rename can never change. -/
inductive Skel where
  | name
  | attr (value : Skel)
  | call1 (func : Skel) (arg : Skel)
  | callKw (func : Skel) (kwArg : Skel)
  | strLit (s : Ident)
deriving DecidableEq, Repr

/-- Erase the Name-node values of an expression. -/
def skeleton : Expr → Skel
  | .name _ => .name
  | .attr e _ => .attr (skeleton e)
  | .call1 f a => .call1 (skeleton f) (skeleton a)
  | .callKw f _ a => .callKw (skeleton f) (skeleton a)
  | .strLit s => .strLit s

/-! ## Namespace declaration normalizer (`namespace_migrator.py`)

File contents are `List Char`.  Python `str.splitlines` is modelled for the
line boundaries `\n`, `\r\n` and `\r` (the exotic Unicode boundaries it
also recognizes do not occur in Python source files).  The three detection
regexes are modelled as deterministic scanners: each regex is a sequence of
literals, `\s*`/`\s+` gaps and `['"]` quote classes, so greedy scanning
with no backtracking is exact. -/

/-- Consume a literal. -/
def eatLit (lit s : List Char) : Option (List Char) :=
  if lit.isPrefixOf s then some (s.drop lit.length) else none

/-- Consume `\s*`. -/
def eatWS (s : List Char) : List Char :=
  s.dropWhile pyIsSpace

/-- Consume `\s+` (at least one whitespace character). -/
def eatWS1 : List Char → Option (List Char)
  | [] => none
  | c :: cs => if pyIsSpace c then some (cs.dropWhile pyIsSpace) else none

/-- Consume the character class `['"]`. -/
def eatQuote : List Char → Option (List Char)
  | [] => none
  | c :: cs => if c = '\'' || c = '"' then some cs else none

/-- `_RE_PKG_RESOURCES.match(line)`:
`^\s*__import__\(\s*['"]pkg_resources['"]\s*\)\s*\.\s*declare_namespace\(\s*__name__\s*\)`
(a prefix match; anything may follow). -/
def matchPkgResources (line : List Char) : Bool :=
  (do
    let s ← eatLit (chars "__import__(") (eatWS line)
    let s ← eatQuote (eatWS s)
    let s ← eatLit (chars "pkg_resources") s
    let s ← eatQuote s
    let s ← eatLit (chars ")") (eatWS s)
    let s ← eatLit (chars ".") (eatWS s)
    let s ← eatLit (chars "declare_namespace(") (eatWS s)
    let s ← eatLit (chars "__name__") (eatWS s)
    let _ ← eatLit (chars ")") (eatWS s)
    pure ()).isSome

/-- `_RE_PKGUTIL_IMPORT.match(line)`:
`^\s*from\s+pkgutil\s+import\s+extend_path\s*$` — the trailing `\s*$`
holds exactly when the rest of the line is all whitespace. -/
def matchPkgutilImport (line : List Char) : Bool :=
  (do
    let s ← eatLit (chars "from") (eatWS line)
    let s ← eatWS1 s
    let s ← eatLit (chars "pkgutil") s
    let s ← eatWS1 s
    let s ← eatLit (chars "import") s
    let s ← eatWS1 s
    let s ← eatLit (chars "extend_path") s
    if s.all pyIsSpace then some () else none).isSome

/-- `_RE_PKGUTIL_PATH.match(line)`:
`^\s*__path__\s*=\s*extend_path\(\s*__path__\s*,\s*__name__\s*\)` (a prefix
match). -/
def matchPkgutilPath (line : List Char) : Bool :=
  (do
    let s ← eatLit (chars "__path__") (eatWS line)
    let s ← eatLit (chars "=") (eatWS s)
    let s ← eatLit (chars "extend_path(") (eatWS s)
    let s ← eatLit (chars "__path__") (eatWS s)
    let s ← eatLit (chars ",") (eatWS s)
    let s ← eatLit (chars "__name__") (eatWS s)
    let _ ← eatLit (chars ")") (eatWS s)
    pure ()).isSome

/-- `namespace_migrator.is_namespace_declaration`. -/
def isNamespaceDeclaration (line : List Char) : Bool :=
  let stripped := pyStrip line
  if stripped.isEmpty then false
  else if stripped.head? = some '#' then false
  else matchPkgResources line || matchPkgutilImport line || matchPkgutilPath line

/-- Splitter for Python `str.splitlines(keepends=True)` with an
accumulator of the current line's characters in reverse. -/
def splitlinesAux (acc : List Char) : List Char → List (List Char)
  | [] => if acc.isEmpty then [] else [acc.reverse]
  | '\n' :: cs => (acc.reverse ++ ['\n']) :: splitlinesAux [] cs
  | '\r' :: '\n' :: cs => (acc.reverse ++ ['\r', '\n']) :: splitlinesAux [] cs
  | '\r' :: cs => (acc.reverse ++ ['\r']) :: splitlinesAux [] cs
  | c :: cs => splitlinesAux (c :: acc) cs

/-- Python `content.splitlines(keepends=True)`. -/
def pySplitlinesKeep (s : List Char) : List (List Char) :=
  splitlinesAux [] s

/-- Remove the line-end characters from the end of one line. -/
def dropLineEnd (l : List Char) : List Char :=
  match l.reverse with
  | '\n' :: '\r' :: rest => rest.reverse
  | '\n' :: rest => rest.reverse
  | '\r' :: rest => rest.reverse
  | _ => l

/-- Python `content.splitlines()` (without keepends). -/
def pySplitlines (s : List Char) : List (List Char) :=
  (pySplitlinesKeep s).map dropLineEnd

/-- `namespace_migrator.has_namespace_declaration`. -/
def hasNamespaceDeclaration (content : List Char) : Bool :=
  (pySplitlines content).any isNamespaceDeclaration

/-- The guard-block tokens allowed by `is_only_namespace_init`. -/
def guardTokens : List (List Char) :=
  [chars "try:", chars "except ImportError:", chars "except:", chars "pass"]

/-- `namespace_migrator.is_only_namespace_init`. -/
def isOnlyNamespaceInit (content : List Char) : Bool :=
  hasNamespaceDeclaration content &&
    (pySplitlines content).all fun line =>
      let stripped := pyStrip line
      stripped.isEmpty || stripped.head? = some '#' ||
        isNamespaceDeclaration line || guardTokens.contains stripped

/-- `namespace_migrator._is_indented`. -/
def isIndented (line : List Char) : Bool :=
  match line with
  | [] => false
  | c :: _ => (c = ' ' || c = '\t') && !(pyStrip line).isEmpty

/-- A line that the try/except scanner treats as block body: blank or
indented (`lines[i].strip() == "" or _is_indented(lines[i])`). -/
def blankOrIndented (line : List Char) : Bool :=
  (pyStrip line).isEmpty || isIndented line

/-- `namespace_migrator._collect_try_except_block`, phrased on the suffix
of the line list that starts at the `try:` candidate: the number of lines
of the block, or `none` when the shape is not a simple try/except. -/
def collectTryExcept : List (List Char) → Option Nat
  | [] => none
  | l₀ :: rest =>
    if pyStrip l₀ = chars "try:" then
      let body := rest.takeWhile blankOrIndented
      match rest.drop body.length with
      | [] => none
      | ex :: rest3 =>
        if (chars "except").isPrefixOf (pyStrip ex) then
          some (1 + body.length + 1 + (rest3.takeWhile blankOrIndented).length)
        else none
    else none

/-- The try-branch of `remove_namespace_declaration`'s loop: the block
length to remove, provided the line starts a recognized try/except block
that contains a `pkg_resources` declaration; otherwise the loop falls
through to the other checks. -/
def tryBlockToRemove (ls : List (List Char)) : Option Nat :=
  match ls with
  | [] => none
  | l :: _ =>
    if pyStrip l = chars "try:" then
      match collectTryExcept ls with
      | some b => if (ls.take b).any matchPkgResources then some b else none
      | none => none
    else none

/-- Skip blank lines (`while i < len(lines) and not lines[i].strip()`). -/
def dropBlankLines (ls : List (List Char)) : List (List Char) :=
  ls.dropWhile fun l => (pyStrip l).isEmpty

/-- The `while i < len(lines)` loop of `remove_namespace_declaration`,
with fuel.  Every iteration consumes at least one line, so fuel equal to
the number of lines is always sufficient. -/
def removeLoop : Nat → List (List Char) → List (List Char)
  | 0, _ => []
  | _ + 1, [] => []
  | fuel + 1, l :: rest =>
    match tryBlockToRemove (l :: rest) with
    | some b => removeLoop fuel (dropBlankLines ((l :: rest).drop b))
    | none =>
      if matchPkgResources l then removeLoop fuel (dropBlankLines rest)
      else if matchPkgutilImport l then
        match dropBlankLines rest with
        | l₂ :: rest₂ =>
          if matchPkgutilPath l₂ then removeLoop fuel (dropBlankLines rest₂)
          else removeLoop fuel (l₂ :: rest₂)
        | [] => removeLoop fuel []
      else if matchPkgutilPath l then removeLoop fuel (dropBlankLines rest)
      else l :: removeLoop fuel rest

/-- `namespace_migrator.remove_namespace_declaration`. -/
def removeNamespaceDeclaration (content : List Char) : List Char :=
  let lines := pySplitlinesKeep content
  let result := removeLoop lines.length lines
  let text := result.flatten
  if (pyStrip text).isEmpty then [] else pyStripNL text ++ ['\n']

/-- The fate of one package-init file. -/
inductive FileAction where
  | deleted
  | edited (newContent : List Char)
  | untouched
deriving DecidableEq, Repr

/-- The action `migrate_namespaces` takes on one `__init__.py` file:
`find_namespace_init_files` selects files with a namespace declaration and
classifies them with `is_only_namespace_init`; declaration-only files are
unlinked, the rest are rewritten with `remove_namespace_declaration` when
that changes them. -/
def migrateInitFile (content : List Char) : FileAction :=
  if hasNamespaceDeclaration content then
    if isOnlyNamespaceInit content then .deleted
    else
      let newContent := removeNamespaceDeclaration content
      if newContent ≠ content then .edited newContent else .untouched
  else .untouched

/-! ## Packaging metadata migrator (`packaging_migrator.py`)

The statically evaluated fragment of the Python `ast` expression grammar is
embedded as a family of mutual inductives (expression, expression list,
dict items, keyword list) so that the evaluator is structurally recursive.
Values are the Python objects static evaluation can produce, with a
dedicated `vUnresolved` variant mirroring the identity-compared
`_UNRESOLVED` sentinel object. -/

/-- An `ast.Constant` payload. -/
inductive PyConst where
  | cStr (s : String)
  | cInt (n : Int)
  | cBool (b : Bool)
  | cNone
deriving DecidableEq, Repr

mutual
/-- An `ast.expr` node, restricted to the shapes `_eval_node` examines;
`otherExpr` stands for every other node kind (lambdas, subscripts,
f-strings, …), which fall through every branch. -/
inductive PyExpr where
  | const (v : PyConst)
  | name (id : String)
  | listE (elts : PyExprs)
  | tupleE (elts : PyExprs)
  | dictE (items : PyDictItems)
  | call (func : PyExpr) (args : PyExprs) (keywords : PyKeywords)
  | binAdd (left right : PyExpr)
  | attrE (value : PyExpr) (attrName : String)
  | otherExpr

/-- A list of expressions. -/
inductive PyExprs where
  | nil
  | cons (head : PyExpr) (tail : PyExprs)

/-- `ast.Dict` items; `consUnpack` is a `**d` item, whose key is `None`. -/
inductive PyDictItems where
  | nil
  | consKV (key value : PyExpr) (tail : PyDictItems)
  | consUnpack (value : PyExpr) (tail : PyDictItems)

/-- `ast.keyword` list; `arg = none` is a `**kwargs` expansion. -/
inductive PyKeywords where
  | nil
  | cons (arg : Option String) (value : PyExpr) (tail : PyKeywords)
end

/-- A value produced by static evaluation: the Python objects reachable in
`_eval_node` plus the `_UNRESOLVED` sentinel, which equals no real
value. -/
inductive Value where
  | vStr (s : String)
  | vInt (n : Int)
  | vBool (b : Bool)
  | vNone
  | vList (items : List Value)
  | vTuple (items : List Value)
  | vDict (items : List (Value × Value))
  | vUnresolved

/-- `ast.Constant.value` as a `Value`. -/
def constToValue : PyConst → Value
  | .cStr s => .vStr s
  | .cInt n => .vInt n
  | .cBool b => .vBool b
  | .cNone => .vNone

mutual
/-- Python `str(value)`, as far as the `find_packages:` interpolation needs
it (`f"find_packages:{where}"`).  `reprMode` renders the `repr` used inside
collections.  String escaping inside `repr` is not modelled; the code only
ever reaches this with a string `where` argument. -/
def pyValueStr (reprMode : Bool) : Value → String
  | .vStr s => if reprMode then "'" ++ s ++ "'" else s
  | .vInt n => toString n
  | .vBool b => if b then "True" else "False"
  | .vNone => "None"
  | .vList items => "[" ++ pyValueSeqStr items ++ "]"
  | .vTuple items => "(" ++ pyValueSeqStr items ++ ")"
  | .vDict items => "\x7b" ++ pyValuePairsStr items ++ "\x7d"
  | .vUnresolved => "<unresolved>"

/-- Comma-joined `repr`s of sequence elements. -/
def pyValueSeqStr : List Value → String
  | [] => ""
  | [v] => pyValueStr true v
  | v :: rest => pyValueStr true v ++ ", " ++ pyValueSeqStr rest

/-- Comma-joined `repr`s of dict items. -/
def pyValuePairsStr : List (Value × Value) → String
  | [] => ""
  | [(k, v)] => pyValueStr true k ++ ": " ++ pyValueStr true v
  | (k, v) :: rest =>
    pyValueStr true k ++ ": " ++ pyValueStr true v ++ ", " ++ pyValuePairsStr rest
end

/-- Python `str.upper` on one ASCII character (the doc filenames compared
against are ASCII). -/
def pyUpperChar (c : Char) : Char :=
  if 'a' ≤ c ∧ c ≤ 'z' then Char.ofNat (c.toNat - 32) else c

/-- Python `s.startswith(pre)`. -/
def pyStartsWith (s pre : String) : Bool :=
  pre.toList.isPrefixOf s.toList

/-- `packaging_migrator._is_doc_filename`:
`filename.split(".")[0].upper() if "." in filename else filename.upper()`
compared against the known documentation names (the first component before
a dot is `takeWhile (· ≠ '.')` in both branches). -/
def isDocFilename (filename : String) : Bool :=
  let base :=
    if ('.' ∈ filename.toList) then
      String.mk ((filename.toList.takeWhile (· ≠ '.')).map pyUpperChar)
    else String.mk (filename.toList.map pyUpperChar)
  base = "README" || base = "CHANGES" || base = "CHANGELOG" ||
    base = "HISTORY" || base = "NEWS"

/-- `packaging_migrator._is_find_packages`. -/
def isFindPackagesCall : PyExpr → Bool
  | .name id => id = "find_packages" || id = "find_namespace_packages"
  | .attrE _ a => a = "find_packages"
  | _ => false

/-- `packaging_migrator._detect_file_read_chain`, applied to the call's
`func` part: `open('file').read()` / `Path('file').read_text()` with a
string-literal first argument. -/
def detectFileReadChain : PyExpr → Option String
  | .attrE (.call (.name fid) (.cons (.const (.cStr s)) _) _) a =>
    if (a = "read" || a = "read_text") && (fid = "open" || fid = "Path") then some s
    else none
  | _ => none

/-- The last branch of `_eval_node`'s call cascade: a call whose first
positional argument is a documentation-like filename literal
(`read("README.rst")`-style helper calls). -/
def docFilenameCall : PyExprs → Value
  | .cons (.const (.cStr fn)) _ =>
    if isDocFilename fn then .vStr ("__file__:" ++ fn) else .vUnresolved
  | _ => .vUnresolved

mutual
/-- `packaging_migrator._eval_node`: statically evaluate an expression
against the collected module-level variables, producing `vUnresolved` for
everything outside the closed set of supported shapes. -/
def evalNode (vars : List (String × Value)) : PyExpr → Value
  | .const v => constToValue v
  | .name id =>
    match vars.lookup id with
    | some v => v
    | none => .vUnresolved
  | .listE elts =>
    match evalElems vars elts with
    | some items => .vList items
    | none => .vUnresolved
  | .tupleE elts =>
    match evalElems vars elts with
    | some items => .vTuple items
    | none => .vUnresolved
  | .dictE items =>
    match evalDictItems vars items with
    | some pairs => .vDict pairs
    | none => .vUnresolved
  | .binAdd l r =>
    match evalNode vars l, evalNode vars r with
    | .vStr ls, .vStr rs =>
      if pyStartsWith ls "__file__:" then .vStr ls else .vStr (ls ++ rs)
    | _, _ => .vUnresolved
  -- the `ast.Call` cascade of `_eval_node`, in source order: `dict(...)`,
  -- `find_packages(...)`, the `open(...).read()` chain, `"...".format(...)`
  -- and finally the doc-filename helper-call shape
  | .call (.name "dict") _ kws =>
    match evalKwPairs vars kws with
    | some pairs => .vDict pairs
    | none => .vUnresolved
  | .call f args _ =>
    if isFindPackagesCall f then
      match args with
      | .nil => .vStr "find_packages:."
      | .cons a _ =>
        match evalNode vars a with
        | .vUnresolved => .vStr "find_packages:."
        | w => .vStr ("find_packages:" ++ pyValueStr false w)
    else
      match detectFileReadChain f with
      | some fname => .vStr ("__file__:" ++ fname)
      | none =>
        match f, args with
        | .attrE (.const (.cStr _)) "format", .cons a _ =>
          match evalNode vars a with
          | .vStr s =>
            if pyStartsWith s "__file__:" then .vStr s else docFilenameCall args
          | _ => docFilenameCall args
        | _, _ => docFilenameCall args
  | .attrE _ _ => .vUnresolved
  | .otherExpr => .vUnresolved

/-- Evaluate list/tuple elements; `none` when any element is unresolved
(`_UNRESOLVED in items`). -/
def evalElems (vars : List (String × Value)) : PyExprs → Option (List Value)
  | .nil => some []
  | .cons e t =>
    match evalNode vars e, evalElems vars t with
    | .vUnresolved, _ => none
    | _, none => none
    | v, some vs => some (v :: vs)

/-- Evaluate `ast.Dict` items; a `**` item or an unresolved key or value
makes the whole dict unresolved. -/
def evalDictItems (vars : List (String × Value)) :
    PyDictItems → Option (List (Value × Value))
  | .nil => some []
  | .consUnpack _ _ => none
  | .consKV k v t =>
    match evalNode vars k, evalNode vars v, evalDictItems vars t with
    | .vUnresolved, _, _ => none
    | _, .vUnresolved, _ => none
    | _, _, none => none
    | kv, vv, some ps => some ((kv, vv) :: ps)

/-- Evaluate the keywords of a `dict(...)` call; a `**` expansion or an
unresolved value makes the whole call unresolved. -/
def evalKwPairs (vars : List (String × Value)) :
    PyKeywords → Option (List (Value × Value))
  | .nil => some []
  | .cons none _ _ => none
  | .cons (some a) v t =>
    match evalNode vars v, evalKwPairs vars t with
    | .vUnresolved, _ => none
    | _, none => none
    | vv, some ps => some ((Value.vStr a, vv) :: ps)
end

/-- The outcome of `_extract_setup_kwargs`: the resolved keyword entries
(the result dict without its `_warnings` key) and the warning list. -/
structure ExtractResult where
  entries : List (String × Value)
  warnings : List String

/-- The loop of `packaging_migrator._extract_setup_kwargs`: `**kwargs`
expansions are skipped, unresolvable values become warnings, resolved
values are stored under the keyword name. -/
def extractLoop (vars : List (String × Value)) :
    PyKeywords → ExtractResult → ExtractResult
  | .nil, acc => acc
  | .cons none _ t, acc => extractLoop vars t acc
  | .cons (some a) v t, acc =>
    match evalNode vars v with
    | .vUnresolved =>
      extractLoop vars t
        ⟨acc.entries, acc.warnings ++ ["Could not resolve value for '" ++ a ++ "'"]⟩
    | w => extractLoop vars t ⟨dictInsert a w acc.entries, acc.warnings⟩

/-- `packaging_migrator._extract_setup_kwargs`. -/
def extractSetupKwargs (vars : List (String × Value)) (kws : PyKeywords) :
    ExtractResult :=
  extractLoop vars kws ⟨[], []⟩

/-- The override test of `packaging_migrator.merge_metadata`:
`val is not None and val != "" and val != []`.  Note that the empty string
and the empty list are the only "empty" values it rejects: an empty dict
(or tuple) does override. -/
def mergeKeeps : Value → Bool
  | .vNone => false
  | .vStr s => !(s = "")
  | .vList items => !items.isEmpty
  | _ => true

/-- `packaging_migrator.merge_metadata`: start from the setup.py record and
overwrite with every setup.cfg entry that passes the override test. -/
def mergeMetadata (setupPyData setupCfgData : List (String × Value)) :
    List (String × Value) :=
  setupCfgData.foldl
    (fun result kv => if mergeKeeps kv.2 then dictInsert kv.1 kv.2 result else result)
    setupPyData

/-- The structured result of `migrate_packaging`, plus the content written
to `pyproject.toml` (`none` when nothing is written). -/
structure MigrateResult where
  created : List String
  deleted : List String
  warnings : List String
  wrote : Option String
deriving DecidableEq, Repr

/-- The skip warning of `migrate_packaging`. -/
def skipWarning : String :=
  "pyproject.toml already has [project] section, skipping migration"

/-- The no-input warning of `migrate_packaging`. -/
def noSetupWarning : String := "No setup.py or setup.cfg found to migrate"

/-- `packaging_migrator.migrate_packaging`, with the file-reading and
parsing collaborators abstracted into arguments:

* `setupPy` — `parse_setup_py`'s result when `setup.py` exists (`none`
  when the file is absent; a file that fails to parse yields an empty
  result with no warnings, exactly as the code's `{}`),
* `setupCfg` — `parse_setup_cfg`'s result when `setup.cfg` exists,
* `toolConfigs` — `convert_tool_configs`'s result,
* `manifestInExists` — whether `MANIFEST.in` exists,
* `pyproject` — when `pyproject.toml` exists, its text together with the
  top-level keys `tomlkit.parse` finds (`none` on a parse exception),
* `gen` — `generate_pyproject_toml`.

The control flow (warning collection, the two early returns, the skip
check, generation, write, cleanup) is translated line by line. -/
def migratePackaging
    (setupPy : Option ExtractResult)
    (setupCfg : Option (List (String × Value)))
    (toolConfigs : List (String × Value))
    (manifestInExists : Bool)
    (pyproject : Option (String × Option (List String)))
    (gen : List (String × Value) → Option String →
      Option (List (String × Value)) → String)
    (dryRun : Bool) : MigrateResult :=
  let setupPyData := match setupPy with | some r => r.entries | none => []
  let warnings₁ := match setupPy with | some r => r.warnings | none => []
  let setupCfgData := match setupCfg with | some d => d | none => []
  if setupPyData.isEmpty && setupCfgData.isEmpty then
    ⟨[], [], warnings₁ ++ [noSetupWarning], none⟩
  else
    let metadata := mergeMetadata setupPyData setupCfgData
    let toolCfgs := if setupCfg.isSome then some toolConfigs else none
    let alreadyHasProject :=
      match pyproject with
      | some (_, some keys) => keys.contains "project"
      | _ => false
    if alreadyHasProject then
      ⟨[], [], warnings₁ ++ [skipWarning], none⟩
    else
      let existing := pyproject.map (·.1)
      let content := gen metadata existing toolCfgs
      let deleted :=
        (if setupPy.isSome then ["setup.py"] else []) ++
          (if setupCfg.isSome then ["setup.cfg"] else []) ++
          (if manifestInExists then ["MANIFEST.in"] else [])
      ⟨["pyproject.toml"], deleted, warnings₁, if dryRun then none else some content⟩

/-! ## Predicates used by the statements -/

/-- A statement line none of whose imports matches the mapping table: an
import-from none of whose `(module, name)` keys is mapped, a star import
whose module is no mapping's old module, or any non-import line.  This is
exactly the configuration in which `leave_SimpleStatementLine` takes one of
its "no migration" exits. -/
def QuietStmt (ms : List ImportMapping) : PStmt → Prop
  | .importFrom m ns => ∀ al ∈ ns, lookupMp ms (dottedOf m) al.name = none
  | .importStar m => ∀ mp ∈ ms, mp.old_module ≠ dottedOf m
  | .importFromRel _ => True
  | .exprStmt _ => True

instance (ms : List ImportMapping) (s : PStmt) : Decidable (QuietStmt ms s) :=
  match s with
  | .importFrom m ns =>
    inferInstanceAs (Decidable (∀ al ∈ ns, lookupMp ms (dottedOf m) al.name = none))
  | .importStar m => inferInstanceAs (Decidable (∀ mp ∈ ms, mp.old_module ≠ dottedOf m))
  | .importFromRel _ => inferInstanceAs (Decidable True)
  | .exprStmt _ => inferInstanceAs (Decidable True)

/-- A well-formed dotted-module node: at least one segment, and no segment
contains a dot (true of every module expression libcst can parse, since
`cst.Name` values are single identifiers). -/
def WFModule (m : List Ident) : Prop :=
  m ≠ [] ∧ ∀ seg ∈ m, '.' ∉ seg

instance (m : List Ident) : Decidable (WFModule m) :=
  inferInstanceAs (Decidable (_ ∧ _))

/-- Well-formedness of one statement line (only import modules are
constrained). -/
def WFStmt : PStmt → Prop
  | .importFrom m _ => WFModule m
  | .importStar m => WFModule m
  | .importFromRel _ => True
  | .exprStmt _ => True

instance (s : PStmt) : Decidable (WFStmt s) :=
  match s with
  | .importFrom m _ => inferInstanceAs (Decidable (WFModule m))
  | .importStar m => inferInstanceAs (Decidable (WFModule m))
  | .importFromRel _ => inferInstanceAs (Decidable True)
  | .exprStmt _ => inferInstanceAs (Decidable True)

/-- The mapping table rewrites to final locations: no target module is a
source module, and a target name that differs from its source name (the
only case that schedules usage-site renames) is dot-free and collides with
no source name and no source-module segment.  A table with a chain such as
`A.x → B.y`, `B.y → C.z` violates this, and the rewriter is then not
idempotent. -/
def NoChainTargets (ms : List ImportMapping) : Prop :=
  (∀ mp ∈ ms, ∀ mp' ∈ ms, mp'.old_module ≠ mp.new_module) ∧
  (∀ mp ∈ ms, mp.new_name ≠ mp.old_name →
    ('.' ∉ mp.new_name) ∧
      ∀ mp' ∈ ms, mp.new_name ≠ mp'.old_name ∧ mp.new_name ∉ splitDots mp'.old_module)

instance (ms : List ImportMapping) : Decidable (NoChainTargets ms) :=
  inferInstanceAs (Decidable (_ ∧ _))

/-- The rename table only holds targets drawn from the mapping table's
renaming entries — the invariant `visit_ImportFrom` maintains. -/
def RenOK (ms : List ImportMapping) (r : Renames) : Prop :=
  ∀ kv ∈ r, ∃ mp ∈ ms, kv.2 = mp.new_name ∧ mp.new_name ≠ mp.old_name

/-- The content a package-init file ends up with after `migrate_namespaces`
(deleted files are shown as empty). -/
def migratedContent (content : List Char) : List Char :=
  match migrateInitFile content with
  | .deleted => []
  | .edited newContent => newContent
  | .untouched => content

/-- A top-level "real code" line of a package-init file: non-blank, not a
comment, matching none of the namespace-declaration regexes (with or
without its line ending), not one of the guard tokens, not indented, not an
`except` line, and with no newline in its stripped text.  Such a line makes
the file `mixed` and survives `remove_namespace_declaration`. -/
def isOtherLine (l : List Char) : Bool :=
  !(pyStrip l).isEmpty &&
  !(pyStrip l).head? = some '#' &&
  !matchPkgResources l && !matchPkgutilImport l && !matchPkgutilPath l &&
  !matchPkgResources (dropLineEnd l) && !matchPkgutilImport (dropLineEnd l) &&
  !matchPkgutilPath (dropLineEnd l) &&
  !(l.head? = some ' ') && !(l.head? = some '\t') &&
  !(chars "except").isPrefixOf (pyStrip l) &&
  !(pyStrip l = chars "try:") && !(pyStrip l = chars "pass") &&
  !('\n' ∈ pyStrip l)

/-! ## Concrete fixtures used by the example-level statements -/

/-- The `safe_unicode → plone.base.utils.safe_text` mapping entry, as the
tests exercise it (the shipped `migration_config.yaml` is not part of the
sources; the entry is modelled from the spec's examples). -/
def msSafeUnicode : List ImportMapping :=
  [⟨chars "Products.CMFPlone.utils", chars "safe_unicode",
    chars "plone.base.utils", chars "safe_text"⟩]

/-- A deduplicated mapping table containing a chain: the target of the
first entry is the source of the second. -/
def msChain : List ImportMapping :=
  [⟨chars "A", chars "x", chars "B", chars "y"⟩,
   ⟨chars "B", chars "y", chars "C", chars "z"⟩]

/-- `from A import x`, as a one-line module. -/
def fileChain : List PStmt :=
  [.importFrom [chars "A"] [⟨chars "x", none⟩]]

/-- A mixed `__init__.py` whose extra statement `x = 1` sits inside the
try/except guard block around the `pkg_resources` declaration. -/
def mixedGuardInit : List Char :=
  chars "try:\n    __import__('pkg_resources').declare_namespace(__name__)\n    x = 1\nexcept ImportError:\n    pass\n"

/-- A declaration-only `__init__.py`: guarded registration and nothing
else. -/
def declOnlyInit : List Char :=
  chars "try:\n    __import__('pkg_resources').declare_namespace(__name__)\nexcept ImportError:\n    pass\n"

/-- A mixed `__init__.py` with a top-level extra statement. -/
def mixedTopLevelInit : List Char :=
  chars "__import__('pkg_resources').declare_namespace(__name__)\nlogger = __import__('logging').getLogger(__name__)\n"

/-- `open('<fn>').read()`. -/
def openReadCall (fn : String) : PyExpr :=
  .call (.attrE (.call (.name "open") (.cons (.const (.cStr fn)) .nil) .nil) "read")
    .nil .nil

/-- `Path('<fn>').read_text()`. -/
def pathReadCall (fn : String) : PyExpr :=
  .call (.attrE (.call (.name "Path") (.cons (.const (.cStr fn)) .nil) .nil) "read_text")
    .nil .nil

/-- `read('<fn>')` — a locally defined helper invoked with a
documentation-like filename. -/
def readHelperCall (fn : String) : PyExpr :=
  .call (.name "read") (.cons (.const (.cStr fn)) .nil) .nil

/-- `"\n\n".join([open('README.rst').read(), open('CONTRIBUTORS.rst').read(),
open('CHANGES.rst').read()])` — the join shape from the repository's own
test suite (`test_long_description_join_pattern`). -/
def joinOfReads : PyExpr :=
  .call (.attrE (.const (.cStr "\n\n")) "join")
    (.cons
      (.listE (.cons (openReadCall "README.rst")
        (.cons (openReadCall "CONTRIBUTORS.rst")
          (.cons (openReadCall "CHANGES.rst") .nil))))
      .nil)
    .nil

/-- `"{0}\n\n{1}".format(read("README.rst"), read("CHANGES.rst"))`. -/
def formatOfReads : PyExpr :=
  .call (.attrE (.const (.cStr "\x7b0\x7d\n\n\x7b1\x7d")) "format")
    (.cons (readHelperCall "README.rst") (.cons (readHelperCall "CHANGES.rst") .nil))
    .nil

/-- `read("README.rst") + "\n" + read("CHANGES.rst")` (left-associated, as
Python parses it). -/
def concatOfReads : PyExpr :=
  .binAdd (.binAdd (readHelperCall "README.rst") (.const (.cStr "\n")))
    (readHelperCall "CHANGES.rst")

/-- The keywords of
`setup(name='my-package', long_description="\n\n".join([...]))`. -/
def setupKwsJoin : PyKeywords :=
  .cons (some "name") (.const (.cStr "my-package"))
    (.cons (some "long_description") joinOfReads .nil)

/-! # Lemmas -/

/-! ## Text rewriter lemmas -/

theorem pyReplaceAux_of_not_infix {old : List Char} (new : List Char) :
    ∀ (fuel : Nat) (s : List Char), ¬ old <:+: s →
      pyReplaceAux old new fuel s = s := by
  intro fuel
  induction fuel with
  | zero => intro s _; rfl
  | succ n ih =>
    intro s hs
    match s with
    | [] => rfl
    | c :: cs =>
      have hpre : old.isPrefixOf (c :: cs) = false := by
        by_contra h
        exact hs ((List.isPrefixOf_iff_prefix.1 (by simpa using h)).isInfix)
      have hcs : ¬ old <:+: cs := fun h => hs (List.infix_cons_iff.2 (Or.inr h))
      simp only [pyReplaceAux, hpre, Bool.false_eq_true, if_false]
      rw [ih cs hcs]

/-- `str.replace` is the identity when the pattern does not occur in the
text (note the empty pattern occurs in every text). -/
theorem pyReplace_of_not_infix {s old : List Char} (new : List Char)
    (h : ¬ old <:+: s) : pyReplace s old new = s := by
  have hne : old ≠ [] := by
    rintro rfl; exact h List.nil_infix
  simp only [pyReplace, hne, if_false]
  exact pyReplaceAux_of_not_infix new s.length s h

theorem foldl_pyReplace_of_no_match {rs : List ReplPair} {content : List Char}
    (h : ∀ p ∈ rs, ¬ p.1 <:+: content) :
    rs.foldl (fun result p => pyReplace result p.1 p.2) content = content := by
  induction rs with
  | nil => rfl
  | cons p ps ih =>
    have h1 : pyReplace content p.1 p.2 = content :=
      pyReplace_of_not_infix p.2 (h p (List.mem_cons_self p ps))
    simp only [List.foldl_cons, h1]
    exact ih fun q hq => h q (List.mem_cons_of_mem p hq)

theorem mem_insertByLenDesc {p x : ReplPair} {l : List ReplPair} :
    x ∈ insertByLenDesc p l ↔ x = p ∨ x ∈ l := by
  induction l with
  | nil => simp [insertByLenDesc]
  | cons q qs ih =>
    simp only [insertByLenDesc]
    split
    · simp [List.mem_cons]
    · simp only [List.mem_cons, ih]
      tauto

theorem pairwise_insertByLenDesc {p : ReplPair} {l : List ReplPair}
    (h : List.Pairwise (fun a b : ReplPair => b.1.length ≤ a.1.length) l) :
    List.Pairwise (fun a b : ReplPair => b.1.length ≤ a.1.length)
      (insertByLenDesc p l) := by
  induction l with
  | nil => simp [insertByLenDesc]
  | cons q qs ih =>
    simp only [insertByLenDesc]
    rcases List.pairwise_cons.1 h with ⟨hq, hqs⟩
    split
    · rename_i hlt
      refine List.pairwise_cons.2 ⟨?_, h⟩
      intro x hx
      rcases List.mem_cons.1 hx with rfl | hx
      · omega
      · exact le_trans (hq x hx) (le_of_lt hlt)
    · rename_i hnlt
      refine List.pairwise_cons.2 ⟨?_, ih hqs⟩
      intro x hx
      rcases mem_insertByLenDesc.1 hx with rfl | hx
      · omega
      · exact hq x hx

/-- `_build_replacements` orders the pairs by non-increasing length of the
old literal: any pair strictly longer than another comes strictly
earlier. -/
theorem buildReplacements_pairwise (entries : List ReplPair) :
    List.Pairwise (fun a b : ReplPair => b.1.length ≤ a.1.length)
      (buildReplacements entries) := by
  show List.Pairwise _ (sortByLenDesc entries)
  induction entries with
  | nil => simp [sortByLenDesc]
  | cons p ps ih => exact pairwise_insertByLenDesc ih

/-! ## Dict lemmas -/

theorem lookup_dictInsert {α β : Type} [BEq α] [LawfulBEq α] (k k' : α) (v : β)
    (d : List (α × β)) :
    List.lookup k' (dictInsert k v d) =
      if k' == k then some v else List.lookup k' d := by
  induction d with
  | nil =>
    by_cases h : k' = k
    · subst h; simp [dictInsert, List.lookup]
    · have hb : (k' == k) = false := beq_false_of_ne h
      simp [dictInsert, List.lookup, hb]
  | cons kv t ih =>
    obtain ⟨k₀, v₀⟩ := kv
    by_cases h0 : k₀ = k
    · subst h0
      by_cases h : k' = k₀
      · subst h; simp [dictInsert, List.lookup]
      · have hb : (k' == k₀) = false := beq_false_of_ne h
        simp [dictInsert, List.lookup, hb]
    · have hb0 : (k₀ == k) = false := beq_false_of_ne h0
      by_cases h : k' = k₀
      · subst h
        have hb : (k' == k) = false := beq_false_of_ne h0
        simp [dictInsert, hb0, List.lookup, hb]
      · have hb : (k' == k₀) = false := beq_false_of_ne h
        simp [dictInsert, hb0, List.lookup, hb, ih]

theorem mem_dictInsert {α β : Type} [BEq α] [LawfulBEq α] {k : α} {v : β}
    {d : List (α × β)} {kv : α × β} (h : kv ∈ dictInsert k v d) :
    kv.2 = v ∨ kv ∈ d := by
  induction d with
  | nil =>
    simp only [dictInsert] at h
    rcases List.mem_cons.1 h with rfl | hm
    · exact Or.inl rfl
    · simp at hm
  | cons kv₀ t ih =>
    obtain ⟨k₀, v₀⟩ := kv₀
    by_cases h0 : k₀ = k
    · have hb0 : (k₀ == k) = true := by simp [h0]
      simp only [dictInsert, hb0, if_true] at h
      rcases List.mem_cons.1 h with rfl | hm
      · exact Or.inl rfl
      · exact Or.inr (List.mem_cons_of_mem _ hm)
    · have hb0 : (k₀ == k) = false := beq_false_of_ne h0
      simp only [dictInsert, hb0, Bool.false_eq_true, if_false] at h
      rcases List.mem_cons.1 h with rfl | hm
      · exact Or.inr (List.mem_cons_self _ _)
      · rcases ih hm with h' | h'
        · exact Or.inl h'
        · exact Or.inr (List.mem_cons_of_mem _ h')

/-! ## Mapping lookup lemmas -/

theorem lookup_buildLookup (ms : List ImportMapping) (k : Ident × Ident) :
    List.lookup k (buildLookup ms) =
      ms.reverse.find? fun mp => (mp.old_module, mp.old_name) == k := by
  suffices h : ∀ (d : List ((Ident × Ident) × ImportMapping)),
      List.lookup k (ms.foldl (fun d mp => dictInsert (mp.old_module, mp.old_name) mp d) d) =
        ((ms.reverse.find? fun mp => (mp.old_module, mp.old_name) == k).or
          (List.lookup k d)) by
    have h0 := h []
    simpa [Option.or_none] using h0
  induction ms with
  | nil => intro d; simp
  | cons mp ms ih =>
    intro d
    have hstep : List.lookup k (dictInsert (mp.old_module, mp.old_name) mp d) =
        (List.find? (fun mp => (mp.old_module, mp.old_name) == k) [mp]).or
          (List.lookup k d) := by
      by_cases hk : (mp.old_module, mp.old_name) = k
      · have hb : ((mp.old_module, mp.old_name) == k) = true := by
          simp [beq_iff_eq, hk]
        have hb' : (k == (mp.old_module, mp.old_name)) = true := by
          simp [beq_iff_eq, hk.symm]
        rw [lookup_dictInsert]
        simp [List.find?, hb, hb', Option.or]
      · have hb : ((mp.old_module, mp.old_name) == k) = false := beq_false_of_ne hk
        have hb' : (k == (mp.old_module, mp.old_name)) = false :=
          beq_false_of_ne fun h => hk h.symm
        rw [lookup_dictInsert]
        simp [List.find?, hb, hb', Option.none_or]
    rw [List.foldl_cons, ih, hstep, List.reverse_cons, List.find?_append,
      Option.or_assoc]

theorem lookupMp_eq_some {ms : List ImportMapping} {M n : Ident}
    {mp : ImportMapping} (h : lookupMp ms M n = some mp) :
    mp ∈ ms ∧ mp.old_module = M ∧ mp.old_name = n := by
  rw [lookupMp, lookup_buildLookup] at h
  refine ⟨List.mem_reverse.1 (List.mem_of_find?_eq_some h), ?_⟩
  have := List.find?_some h
  simpa [beq_iff_eq, Prod.ext_iff] using this

theorem lookupMp_eq_none {ms : List ImportMapping} {M n : Ident} :
    lookupMp ms M n = none ↔
      ∀ mp ∈ ms, ¬(mp.old_module = M ∧ mp.old_name = n) := by
  rw [lookupMp, lookup_buildLookup]
  rw [List.find?_eq_none]
  constructor
  · intro h mp hmp
    have := h mp (List.mem_reverse.2 hmp)
    simpa [beq_iff_eq, Prod.ext_iff] using this
  · intro h mp hmp
    have := h mp (List.mem_reverse.1 hmp)
    simpa [beq_iff_eq, Prod.ext_iff] using this

/-! ## Metadata merge lemma -/

theorem lookup_eq_none_of_not_mem_keys {β : Type} {k : String}
    {l : List (String × β)} (h : k ∉ l.map Prod.fst) : List.lookup k l = none := by
  induction l with
  | nil => rfl
  | cons kv t ih =>
    obtain ⟨k₀, v₀⟩ := kv
    simp only [List.map_cons, List.mem_cons, not_or] at h
    have hb : (k == k₀) = false := beq_false_of_ne h.1
    simp [List.lookup, hb, ih h.2]

theorem lookup_mergeMetadata (py cfg : List (String × Value))
    (hcfg : (cfg.map Prod.fst).Nodup) (k : String) :
    List.lookup k (mergeMetadata py cfg) =
      match List.lookup k cfg with
      | some v => if mergeKeeps v then some v else List.lookup k py
      | none => List.lookup k py := by
  suffices h : ∀ (acc : List (String × Value)),
      (cfg.map Prod.fst).Nodup →
      List.lookup k
          (cfg.foldl
            (fun result kv =>
              if mergeKeeps kv.2 then dictInsert kv.1 kv.2 result else result)
            acc) =
        match List.lookup k cfg with
        | some v => if mergeKeeps v then some v else List.lookup k acc
        | none => List.lookup k acc from h py hcfg
  clear hcfg
  induction cfg with
  | nil => intro acc _; simp
  | cons kv cfg ih =>
    intro acc hnd
    obtain ⟨k₀, v₀⟩ := kv
    simp only [List.map_cons, List.nodup_cons] at hnd
    obtain ⟨hk₀, hnd⟩ := hnd
    simp only [List.foldl_cons, ih _ hnd]
    by_cases hk : k = k₀
    · subst hk
      have hlc : List.lookup k cfg = none :=
        lookup_eq_none_of_not_mem_keys hk₀
      have hlk : List.lookup k ((k, v₀) :: cfg) = some v₀ := by
        simp [List.lookup]
      rw [hlc, hlk]
      by_cases hkeep : mergeKeeps v₀
      · simp [hkeep, lookup_dictInsert]
      · simp [hkeep]
    · have hb : (k == k₀) = false := beq_false_of_ne hk
      have hlk : List.lookup k ((k₀, v₀) :: cfg) = List.lookup k cfg := by
        simp [List.lookup, hb]
      have hacc : List.lookup k
          (if mergeKeeps v₀ then dictInsert k₀ v₀ acc else acc) =
          List.lookup k acc := by
        by_cases hkeep : mergeKeeps v₀
        · simp [hkeep, lookup_dictInsert, hb]
        · simp [hkeep]
      rw [hlk, hacc]

/-! ## Namespace-removal lemmas -/

theorem dropBlankLines_sublist (ls : List (List Char)) :
    (dropBlankLines ls).Sublist ls :=
  List.dropWhile_sublist _

theorem removeLoop_sublist : ∀ (fuel : Nat) (ls : List (List Char)),
    (removeLoop fuel ls).Sublist ls := by
  intro fuel
  induction fuel with
  | zero => intro ls; exact List.nil_sublist ls
  | succ n ih =>
    intro ls
    match ls with
    | [] => exact List.nil_sublist []
    | l :: rest =>
      simp only [removeLoop]
      split
      · rename_i b _
        exact ((ih _).trans (dropBlankLines_sublist _)).trans
          (List.drop_sublist b (l :: rest))
      · split
        · exact ((ih _).trans (dropBlankLines_sublist rest)).cons l
        · split
          · rename_i heq
            split
            · rename_i l₂ rest₂ hdb
              split
              · have h1 : (removeLoop n (dropBlankLines rest₂)).Sublist rest₂ :=
                  (ih _).trans (dropBlankLines_sublist rest₂)
                have h2 : (l₂ :: rest₂).Sublist rest := by
                  rw [← hdb]; exact dropBlankLines_sublist rest
                exact ((h1.cons l₂).trans h2).cons l
              · have h2 : (l₂ :: rest₂).Sublist rest := by
                  rw [← hdb]; exact dropBlankLines_sublist rest
                exact ((ih _).trans h2).cons l
            · have h0 : removeLoop n [] = [] := by cases n <;> rfl
              rw [h0]
              exact List.nil_sublist _
          · split
            · exact ((ih _).trans (dropBlankLines_sublist rest)).cons l
            · exact (ih rest).cons₂ l

theorem removeLoop_not_decl : ∀ (fuel : Nat) (ls : List (List Char)),
    ∀ l ∈ removeLoop fuel ls, isNamespaceDeclaration l = false := by
  intro fuel
  induction fuel with
  | zero => intro ls l hl; simp [removeLoop] at hl
  | succ n ih =>
    intro ls l hl
    match ls with
    | [] => simp [removeLoop] at hl
    | l₀ :: rest =>
      simp only [removeLoop] at hl
      split at hl
      · exact ih _ l hl
      · split at hl
        · exact ih _ l hl
        · split at hl
          · split at hl
            · split at hl
              · exact ih _ l hl
              · exact ih _ l hl
            · exact ih _ l hl
          · split at hl
            · exact ih _ l hl
            · rename_i hm1 hm2 hm3
              rcases List.mem_cons.1 hl with rfl | hm
              · simp only [isNamespaceDeclaration]
                split
                · rfl
                · split
                  · rfl
                  · simp [hm1, hm2, hm3]
              · exact ih _ l hm

theorem splitlinesAux_flatten (acc s : List Char) :
    (splitlinesAux acc s).flatten = acc.reverse ++ s := by
  induction acc, s using splitlinesAux.induct
  all_goals simp_all [splitlinesAux]

/-- The keepends lines of a content concatenate back to the content. -/
theorem pySplitlinesKeep_flatten (s : List Char) :
    (pySplitlinesKeep s).flatten = s := by
  simpa using splitlinesAux_flatten [] s

theorem mem_dropWhile_of_mem {α : Type} {p : α → Bool} {l : α} {xs : List α}
    (hm : l ∈ xs) (hp : p l = false) : l ∈ xs.dropWhile p := by
  induction xs with
  | nil => simp at hm
  | cons x xs ih =>
    by_cases hx : p x
    · rcases List.mem_cons.1 hm with rfl | hm'
      · rw [hx] at hp; simp at hp
      · simpa [List.dropWhile, hx] using ih hm'
    · simpa [List.dropWhile, hx] using hm

theorem drop_length_takeWhile {α : Type} (p : α → Bool) (l : List α) :
    l.drop (l.takeWhile p).length = l.dropWhile p := by
  induction l with
  | nil => rfl
  | cons x xs ih =>
    by_cases hx : p x
    · simp [List.takeWhile, List.dropWhile, hx, ih]
    · simp [List.takeWhile, List.dropWhile, hx]

theorem collectTryExcept_eq_some {ls : List (List Char)} {b : Nat}
    (h : collectTryExcept ls = some b) :
    ∃ l₀ body ex body2 rest4,
      ls = l₀ :: (body ++ ex :: (body2 ++ rest4)) ∧
      b = 1 + body.length + 1 + body2.length ∧
      pyStrip l₀ = chars "try:" ∧
      (∀ x ∈ body, blankOrIndented x = true) ∧
      (chars "except").isPrefixOf (pyStrip ex) = true ∧
      (∀ x ∈ body2, blankOrIndented x = true) := by
  match ls with
  | [] => simp [collectTryExcept] at h
  | l₀ :: rest =>
    simp only [collectTryExcept] at h
    split at h
    · rename_i htry
      split at h
      · exact absurd h (by simp)
      · rename_i ex rest3 hdrop
        split at h
        · rename_i hex
          refine ⟨l₀, rest.takeWhile blankOrIndented, ex,
            rest3.takeWhile blankOrIndented, rest3.dropWhile blankOrIndented,
            ?_, ?_, htry, ?_, hex, ?_⟩
          · rw [drop_length_takeWhile] at hdrop
            conv_lhs => rw [← List.takeWhile_append_dropWhile blankOrIndented rest]
            rw [hdrop]
            congr 1
            conv_lhs => rw [← List.takeWhile_append_dropWhile blankOrIndented rest3]
          · simpa using h.symm
          · intro x hx; exact List.mem_takeWhile_imp hx
          · intro x hx; exact List.mem_takeWhile_imp hx
        · exact absurd h (by simp)
    · exact absurd h (by simp)

theorem tryBlockToRemove_eq_some {ls : List (List Char)} {b : Nat}
    (h : tryBlockToRemove ls = some b) : collectTryExcept ls = some b := by
  match ls with
  | [] => simp [tryBlockToRemove] at h
  | l :: rest =>
    simp only [tryBlockToRemove] at h
    split at h
    · split at h
      · rename_i b' hc
        split at h
        · cases h; exact hc
        · exact absurd h (by simp)
      · exact absurd h (by simp)
    · exact absurd h (by simp)

theorem blankOrIndented_false_of {l : List Char}
    (hblank : (pyStrip l).isEmpty = false)
    (hhead : ∀ c, l.head? = some c → c ≠ ' ' ∧ c ≠ '\t') :
    blankOrIndented l = false := by
  unfold blankOrIndented isIndented
  rw [hblank]
  match l with
  | [] => simp [pyStrip] at hblank
  | c :: cs =>
    have hc := hhead c rfl
    have h1 : (c = ' ') = False := by simp [hc.1]
    have h2 : (c = '\t') = False := by simp [hc.2]
    simp [h1, h2]

theorem mem_removeLoop : ∀ (fuel : Nat) (ls : List (List Char)) (l : List Char),
    ls.length ≤ fuel → l ∈ ls →
    (pyStrip l).isEmpty = false →
    matchPkgResources l = false → matchPkgutilImport l = false →
    matchPkgutilPath l = false →
    (∀ c, l.head? = some c → c ≠ ' ' ∧ c ≠ '\t') →
    (chars "except").isPrefixOf (pyStrip l) = false →
    pyStrip l ≠ chars "try:" →
    l ∈ removeLoop fuel ls := by
  intro fuel
  induction fuel with
  | zero =>
    intro ls l hfuel hl _ _ _ _ _ _ _
    interval_cases hls : ls.length
    · rw [List.length_eq_zero] at hls; subst hls; simp at hl
  | succ n ih =>
    intro ls l hfuel hl hblank hm1 hm2 hm3 hhead hexc htry
    match ls with
    | [] => simp at hl
    | l₀ :: rest =>
      have hBOI : blankOrIndented l = false := blankOrIndented_false_of hblank hhead
      simp only [removeLoop]
      split
      · -- try/except block removed
        rename_i b heq
        have hc := tryBlockToRemove_eq_some heq
        obtain ⟨l₀', body, ex, body2, rest4, hls, hb, htry₀, hbody, hex, hbody2⟩ :=
          collectTryExcept_eq_some hc
        injection hls with hl₀ hrest
        subst hl₀
        subst hrest
        have hdropb : (l₀ :: (body ++ ex :: (body2 ++ rest4))).drop b = rest4 := by
          have hb' : b = (body.length + (body2.length + 1)) + 1 := by omega
          calc ((l₀ :: (body ++ ex :: (body2 ++ rest4))).drop b)
              = (body ++ ex :: (body2 ++ rest4)).drop
                  (body.length + (body2.length + 1)) := by
                rw [hb', List.drop_succ_cons]
            _ = ((body ++ ex :: (body2 ++ rest4)).drop body.length).drop
                  (body2.length + 1) := (List.drop_drop _ _ _).symm
            _ = (ex :: (body2 ++ rest4)).drop (body2.length + 1) := by
                rw [List.drop_left]
            _ = (body2 ++ rest4).drop body2.length := List.drop_succ_cons
            _ = rest4 := List.drop_left _ _
        have hl4 : l ∈ rest4 := by
          rcases List.mem_cons.1 hl with rfl | hl'
          · exact absurd htry₀ htry
          · rcases List.mem_append.1 hl' with hb' | hl''
            · rw [hbody l hb'] at hBOI; simp at hBOI
            · rcases List.mem_cons.1 hl'' with rfl | hl'''
              · rw [hex] at hexc; simp at hexc
              · rcases List.mem_append.1 hl''' with hb2 | h4
                · rw [hbody2 l hb2] at hBOI; simp at hBOI
                · exact h4
        have hlen :
            (dropBlankLines ((l₀ :: (body ++ ex :: (body2 ++ rest4))).drop b)).length
              ≤ n := by
          rw [hdropb]
          have h1 : (dropBlankLines rest4).length ≤ rest4.length :=
            (dropBlankLines_sublist rest4).length_le
          simp only [List.length_cons, List.length_append] at hfuel
          omega
        exact ih _ l hlen
          (by rw [hdropb]; exact mem_dropWhile_of_mem hl4 (by simpa using hblank))
          hblank hm1 hm2 hm3 hhead hexc htry
      · split
        · -- simple pkg_resources line removed
          rename_i h1
          have hl' : l ∈ rest := by
            rcases List.mem_cons.1 hl with rfl | hl'
            · rw [h1] at hm1; simp at hm1
            · exact hl'
          have hlen : (dropBlankLines rest).length ≤ n := by
            have := (dropBlankLines_sublist rest).length_le
            simp only [List.length_cons] at hfuel
            omega
          exact ih _ l hlen (mem_dropWhile_of_mem hl' (by simpa using hblank))
            hblank hm1 hm2 hm3 hhead hexc htry
        · split
          · -- pkgutil import line removed
            rename_i h2
            have hl' : l ∈ rest := by
              rcases List.mem_cons.1 hl with rfl | hl'
              · rw [h2] at hm2; simp at hm2
              · exact hl'
            have hr2 : l ∈ dropBlankLines rest :=
              mem_dropWhile_of_mem hl' (by simpa using hblank)
            have hr2len : (dropBlankLines rest).length ≤ n := by
              have := (dropBlankLines_sublist rest).length_le
              simp only [List.length_cons] at hfuel
              omega
            split
            · rename_i l₂ rest₂ hdb
              rw [hdb] at hr2 hr2len
              split
              · rename_i hpath
                have hl₂ : l ∈ rest₂ := by
                  rcases List.mem_cons.1 hr2 with rfl | h
                  · rw [hpath] at hm3; simp at hm3
                  · exact h
                have hlen : (dropBlankLines rest₂).length ≤ n := by
                  have := (dropBlankLines_sublist rest₂).length_le
                  simp only [List.length_cons] at hr2len
                  omega
                exact ih _ l hlen
                  (mem_dropWhile_of_mem hl₂ (by simpa using hblank))
                  hblank hm1 hm2 hm3 hhead hexc htry
              · exact ih _ l hr2len hr2 hblank hm1 hm2 hm3 hhead hexc htry
            · rename_i hdb
              rw [hdb] at hr2
              simp at hr2
          · split
            · -- standalone __path__ line removed
              rename_i h3
              have hl' : l ∈ rest := by
                rcases List.mem_cons.1 hl with rfl | hl'
                · rw [h3] at hm3; simp at hm3
                · exact hl'
              have hlen : (dropBlankLines rest).length ≤ n := by
                have := (dropBlankLines_sublist rest).length_le
                simp only [List.length_cons] at hfuel
                omega
              exact ih _ l hlen (mem_dropWhile_of_mem hl' (by simpa using hblank))
                hblank hm1 hm2 hm3 hhead hexc htry
            · -- line kept
              rcases List.mem_cons.1 hl with rfl | hl'
              · exact List.mem_cons_self _ _
              · have hlen : rest.length ≤ n := by
                  simp only [List.length_cons] at hfuel; omega
                exact List.mem_cons_of_mem _
                  (ih rest l hlen hl' hblank hm1 hm2 hm3 hhead hexc htry)

theorem contains_eq_true_of_mem {α : Type} [BEq α] [LawfulBEq α] {l : List α}
    {x : α} (h : x ∈ l) : l.contains x = true :=
  List.elem_iff.2 h

theorem contains_eq_false_of_not_mem {α : Type} [BEq α] [LawfulBEq α]
    {l : List α} {x : α} (h : x ∉ l) : l.contains x = false := by
  rw [Bool.eq_false_iff]
  intro hc
  exact h (List.elem_iff.1 hc)

theorem pyStrip_append_allspace (xs ys : List Char)
    (hys : ∀ c ∈ ys, pyIsSpace c = true) : pyStrip (xs ++ ys) = pyStrip xs := by
  unfold pyStrip
  by_cases hx : (xs.dropWhile pyIsSpace).isEmpty
  · have hxnil : xs.dropWhile pyIsSpace = [] := List.isEmpty_iff.1 hx
    have hall : (xs ++ ys).dropWhile pyIsSpace = [] := by
      rw [List.dropWhile_eq_nil_iff]
      intro c hc
      rcases List.mem_append.1 hc with h | h
      · exact (List.dropWhile_eq_nil_iff.1 hxnil) c h
      · exact hys c h
    rw [hall, hxnil]
  · have hys' : ys.dropWhile pyIsSpace = [] := by
      rw [List.dropWhile_eq_nil_iff]; exact hys
    rw [List.dropWhile_append, if_neg (by simp [hx])]
    have hrev : (xs.dropWhile pyIsSpace ++ ys).reverse =
        ys.reverse ++ (xs.dropWhile pyIsSpace).reverse := by
      simp
    rw [hrev, List.dropWhile_append]
    have hysrev : ys.reverse.dropWhile pyIsSpace = [] := by
      rw [List.dropWhile_eq_nil_iff]
      intro c hc
      exact hys c (List.mem_reverse.1 hc)
    rw [hysrev]
    simp

theorem dropLineEnd_spec (l : List Char) :
    ∃ e, l = dropLineEnd l ++ e ∧ ∀ c ∈ e, pyIsSpace c = true := by
  unfold dropLineEnd
  split
  · rename_i heq
    refine ⟨['\r', '\n'], ?_, by decide⟩
    conv_lhs => rw [← l.reverse_reverse, heq]
    simp
  · rename_i heq
    refine ⟨['\n'], ?_, by decide⟩
    conv_lhs => rw [← l.reverse_reverse, heq]
    simp
  · rename_i heq
    refine ⟨['\r'], ?_, by decide⟩
    conv_lhs => rw [← l.reverse_reverse, heq]
    simp
  · exact ⟨[], by simp, by simp⟩

theorem pyStrip_dropLineEnd (l : List Char) :
    pyStrip (dropLineEnd l) = pyStrip l := by
  obtain ⟨e, he, hsp⟩ := dropLineEnd_spec l
  conv_rhs => rw [he]
  exact (pyStrip_append_allspace _ _ hsp).symm

theorem pyStrip_eq_nil_iff {l : List Char} :
    pyStrip l = [] ↔ ∀ c ∈ l, pyIsSpace c = true := by
  constructor
  · intro h c hc
    unfold pyStrip at h
    rw [List.reverse_eq_nil_iff, List.dropWhile_eq_nil_iff] at h
    have hd : ∀ c ∈ l.dropWhile pyIsSpace, pyIsSpace c = true := by
      intro c hc
      exact h c (List.mem_reverse.2 hc)
    have := List.takeWhile_append_dropWhile pyIsSpace l
    rcases List.mem_append.1 (by rw [this]; exact hc :
        c ∈ l.takeWhile pyIsSpace ++ l.dropWhile pyIsSpace) with h' | h'
    · exact List.mem_takeWhile_imp h'
    · exact hd c h'
  · intro h
    unfold pyStrip
    have : l.dropWhile pyIsSpace = [] := List.dropWhile_eq_nil_iff.2 h
    rw [this]
    rfl

theorem pyStrip_infix (l : List Char) : pyStrip l <:+: l := by
  have h1 : l.dropWhile pyIsSpace <:+ l := List.dropWhile_suffix _
  have h2 : pyStrip l <+: l.dropWhile pyIsSpace := by
    unfold pyStrip
    conv_rhs => rw [← (l.dropWhile pyIsSpace).reverse_reverse]
    exact List.reverse_prefix.2 (List.dropWhile_suffix _)
  exact h2.isInfix.trans h1.isInfix

theorem infix_dropWhile {p : Char → Bool} {t s : List Char} (hne : t ≠ [])
    (hp : ∀ c ∈ t, p c = false) (h : t <:+: s) : t <:+: s.dropWhile p := by
  obtain ⟨u, v, huv⟩ := h
  match t, hne with
  | th :: tt, _ =>
    rw [← huv, List.append_assoc, List.dropWhile_append]
    split
    · rw [List.cons_append, List.dropWhile_cons_of_neg (by simp [hp th (by simp)])]
      exact ⟨[], v, by simp⟩
    · exact ⟨u.dropWhile p, v, by simp⟩

theorem infix_pyStripNL {t s : List Char} (hne : t ≠ [])
    (hnl : ∀ c ∈ t, (c = '\n') = False) (h : t <:+: s) : t <:+: pyStripNL s := by
  have hp : ∀ c ∈ t, (fun c => decide (c = '\n')) c = false := by
    intro c hc
    simp [hnl c hc]
  have h1 : t <:+: s.dropWhile (· = '\n') := infix_dropWhile hne hp h
  have h2 : t.reverse <:+: (s.dropWhile (· = '\n')).reverse := by
    rw [List.reverse_infix]; exact h1
  have h3 : t.reverse <:+:
      ((s.dropWhile (· = '\n')).reverse).dropWhile (· = '\n') := by
    refine infix_dropWhile (by simpa using hne) ?_ h2
    intro c hc
    simp [hnl c (List.mem_reverse.1 hc)]
  unfold pyStripNL
  have := List.reverse_infix.2 h3
  simpa using this

/-! # Claim theorems -/

/-- C10: `remove_namespace_declaration` keeps a subsequence of the file's
lines (verbatim, in their original relative order), none of which is a
namespace declaration, and returns the empty string when the surviving
content is all whitespace, and otherwise the surviving content with the
newline characters stripped from both ends and exactly one trailing newline
appended. -/
theorem claim_C10_remove_shape (content : List Char) :
    (removeLoop (pySplitlinesKeep content).length
        (pySplitlinesKeep content)).Sublist (pySplitlinesKeep content) ∧
    (∀ l ∈ removeLoop (pySplitlinesKeep content).length (pySplitlinesKeep content),
      isNamespaceDeclaration l = false) ∧
    removeNamespaceDeclaration content =
      (if (pyStrip (removeLoop (pySplitlinesKeep content).length
            (pySplitlinesKeep content)).flatten).isEmpty then []
       else pyStripNL (removeLoop (pySplitlinesKeep content).length
            (pySplitlinesKeep content)).flatten ++ ['\n']) :=
  ⟨removeLoop_sublist _ _, removeLoop_not_decl _ _, rfl⟩

/-- C6 (counterexample): a file whose extra statement `x = 1` sits inside
the try/except guard block is classified mixed (not declaration-only), yet
`remove_namespace_declaration` deletes the whole guard block including that
statement, editing the file down to empty — the statement does not
survive. -/
theorem claim_C6_counterexample :
    isOnlyNamespaceInit mixedGuardInit = false ∧
    migrateInitFile mixedGuardInit = .edited [] ∧
    ¬ (chars "x = 1") <:+: ([] : List Char) := by
  refine ⟨by decide, by decide, by decide⟩

/-- C6 (amended): a package-init file whose non-blank, non-comment lines
are all namespace declarations or guard tokens (with at least one
declaration) is classified declaration-only and deleted whole; a file with
a top-level other statement is never deleted, and that statement's text
survives in the file's final content.  (A statement nested inside a guard
block around a `pkg_resources` declaration is removed with the block — see
the counterexample.) -/
theorem claim_C6_init_classification (content : List Char) :
    ((∀ line ∈ pySplitlines content,
        (pyStrip line).isEmpty = true ∨ (pyStrip line).head? = some '#' ∨
          isNamespaceDeclaration line = true ∨ pyStrip line ∈ guardTokens) →
      (∃ line ∈ pySplitlines content, isNamespaceDeclaration line = true) →
      migrateInitFile content = .deleted) ∧
    (∀ l ∈ pySplitlinesKeep content, isOtherLine l = true →
      migrateInitFile content ≠ .deleted ∧
        pyStrip l <:+: migratedContent content) := by
  constructor
  · intro hall hsome
    have hhas : hasNamespaceDeclaration content = true := by
      obtain ⟨line, h1, h2⟩ := hsome
      exact List.any_eq_true.2 ⟨line, h1, h2⟩
    have honly : isOnlyNamespaceInit content = true := by
      unfold isOnlyNamespaceInit
      rw [hhas, Bool.true_and, List.all_eq_true]
      intro line hline
      rcases hall line hline with h | h | h | h
      · simp [h]
      · simp [h]
      · simp [h]
      · simp only [contains_eq_true_of_mem h, Bool.or_true]
    simp [migrateInitFile, hhas, honly]
  · intro l hlmem hother
    have hb := hother
    unfold isOtherLine at hb
    simp only [Bool.and_eq_true, Bool.not_eq_true', Bool.not_eq_true,
      decide_eq_false_iff_not, decide_eq_true_eq] at hb
    obtain ⟨⟨⟨⟨⟨⟨⟨⟨⟨⟨⟨⟨⟨hblank, hhash⟩, hm1⟩, hm2⟩, hm3⟩, hm4⟩, hm5⟩, hm6⟩,
      hsp⟩, htab⟩, hexc⟩, htry⟩, hpass⟩, hnl⟩ := hb
    have hhead : ∀ c, l.head? = some c → c ≠ ' ' ∧ c ≠ '\t' := by
      intro c hc
      constructor
      · rintro rfl; exact hsp hc
      · rintro rfl; exact htab hc
    have hstripne : pyStrip l ≠ [] := by
      intro h0
      rw [h0] at hblank
      simp at hblank
    have hlstrip : pyStrip (dropLineEnd l) = pyStrip l := pyStrip_dropLineEnd l
    have hline' : dropLineEnd l ∈ pySplitlines content :=
      List.mem_map_of_mem dropLineEnd hlmem
    have hNSdecl' : isNamespaceDeclaration (dropLineEnd l) = false := by
      unfold isNamespaceDeclaration
      rw [hlstrip]
      simp [hblank, hhash, hm4, hm5, hm6]
    have hguard : pyStrip l ∉ guardTokens := by
      intro hmem
      rcases (by simpa [guardTokens] using hmem :
          pyStrip l = chars "try:" ∨ pyStrip l = chars "except ImportError:" ∨
            pyStrip l = chars "except:" ∨ pyStrip l = chars "pass") with
        h | h | h | h
      · exact htry h
      · rw [h] at hexc; exact absurd hexc (by decide)
      · rw [h] at hexc; exact absurd hexc (by decide)
      · exact hpass h
    have honly : isOnlyNamespaceInit content = false := by
      unfold isOnlyNamespaceInit
      rcases hB : hasNamespaceDeclaration content with _ | _
      · rfl
      · rw [Bool.true_and]
        rw [List.all_eq_false]
        refine ⟨dropLineEnd l, hline', ?_⟩
        rw [hlstrip]
        simp only [hblank, hhash, hNSdecl', contains_eq_false_of_not_mem hguard,
          Bool.or_false, Bool.false_or, decide_eq_false_iff_not, not_false_eq_true,
          decide_False, Bool.false_eq_true, not_false_iff]
    have hcontent : pyStrip l <:+: content := by
      have h1 : l <:+: (pySplitlinesKeep content).flatten :=
        List.infix_of_mem_flatten hlmem
      rw [pySplitlinesKeep_flatten] at h1
      exact ( pyStrip_infix l).trans h1
    by_cases hhas : hasNamespaceDeclaration content = true
    · by_cases hch : removeNamespaceDeclaration content = content
      · have hfile : migrateInitFile content = .untouched := by
          simp [migrateInitFile, hhas, honly, hch]
        constructor
        · rw [hfile]; simp
        · unfold migratedContent
          rw [hfile]
          exact hcontent
      · have hfile : migrateInitFile content =
            .edited (removeNamespaceDeclaration content) := by
          simp [migrateInitFile, hhas, honly, hch]
        constructor
        · rw [hfile]; simp
        · unfold migratedContent
          rw [hfile]
          show pyStrip l <:+: removeNamespaceDeclaration content
          have hkept : l ∈ removeLoop (pySplitlinesKeep content).length
              (pySplitlinesKeep content) :=
            mem_removeLoop _ _ l le_rfl hlmem
              (by simpa [List.isEmpty_iff] using hstripne)
              hm1 hm2 hm3 hhead
              (by simpa using hexc) htry
          have hinfix1 : l <:+: (removeLoop (pySplitlinesKeep content).length
              (pySplitlinesKeep content)).flatten :=
            List.infix_of_mem_flatten hkept
          have ht : pyStrip l <:+: (removeLoop (pySplitlinesKeep content).length
              (pySplitlinesKeep content)).flatten :=
            ( pyStrip_infix l).trans hinfix1
          have hc : ∃ c ∈ l, pyIsSpace c = false := by
            by_contra hno
            push_neg at hno
            exact hstripne (pyStrip_eq_nil_iff.2 (by
              intro c hcl
              have := hno c hcl
              simpa using this))
          obtain ⟨c, hcl, hcs⟩ := hc
          have hcm : c ∈ (removeLoop (pySplitlinesKeep content).length
              (pySplitlinesKeep content)).flatten :=
            hinfix1.sublist.mem hcl
          have htext : (pyStrip ((removeLoop (pySplitlinesKeep content).length
              (pySplitlinesKeep content)).flatten)).isEmpty = false := by
            rw [Bool.eq_false_iff]
            intro h0
            have := pyStrip_eq_nil_iff.1 (List.isEmpty_iff.1 h0) c hcm
            rw [this] at hcs
            exact Bool.true_eq_false ▸ hcs
          have hrm : removeNamespaceDeclaration content =
              pyStripNL ((removeLoop (pySplitlinesKeep content).length
                (pySplitlinesKeep content)).flatten) ++ ['\n'] := by
            simp [removeNamespaceDeclaration, htext]
          rw [hrm]
          have hstep : pyStrip l <:+:
              pyStripNL ((removeLoop (pySplitlinesKeep content).length
                (pySplitlinesKeep content)).flatten) := by
            refine infix_pyStripNL hstripne ?_ ht
            intro ch hch
            simp only [eq_iff_iff, iff_false]
            rintro rfl
            exact hnl hch
          obtain ⟨u, v, huv⟩ := hstep
          exact ⟨u, v ++ ['\n'], by rw [← huv]; simp⟩
    · have hfile : migrateInitFile content = .untouched := by
        simp [migrateInitFile, hhas]
      constructor
      · rw [hfile]; simp
      · unfold migratedContent
        rw [hfile]
        exact hcontent

/-- C6 (witness): a declaration-only guarded init file is deleted; a mixed
init file with a top-level `logger = …` line is not deleted and the line's
text survives in the final content. -/
theorem claim_C6_witness :
    migrateInitFile declOnlyInit = .deleted ∧
    (migrateInitFile mixedTopLevelInit ≠ .deleted ∧
      pyStrip (chars "logger = __import__('logging').getLogger(__name__)\n") <:+:
        migratedContent mixedTopLevelInit) :=
  ⟨(claim_C6_init_classification declOnlyInit).1 (by decide) (by decide),
    (claim_C6_init_classification mixedTopLevelInit).2
      (chars "logger = __import__('logging').getLogger(__name__)\n")
      (by decide) (by decide)⟩

/-- C2 (counterexample): `migrate_bootstrap_content` applies the CSS-class
pairs in the order they are listed; with `("pull","x")` listed before
`("pull-right","float-end")`, the text `"pull-right"` becomes `"x-right"`,
not `"float-end"` — so the claimed order-independence fails for this entry
point. -/
theorem claim_C2_counterexample :
    migrateBootstrapContent (chars "pull-right") []
        [(chars "pull", chars "x"), (chars "pull-right", chars "float-end")] =
      chars "x-right" ∧ chars "x-right" ≠ chars "float-end" := by
  constructor
  · decide
  · decide

/-- C2 (amended): pairs routed through `_build_replacements` (the
ZCML/GenericSetup path) are sorted by non-increasing old-literal length, so
a strictly longer literal is always tried first; in particular, the pairs
`("pull-right","float-end")` and `("pull","x")` applied through
`_build_replacements` to `"pull-right"` yield `"float-end"` in either
listed order.  (`migrate_bootstrap_content` does not sort — see the
counterexample.) -/
theorem claim_C2_longest_match_first :
    (∀ entries : List ReplPair,
      List.Pairwise (fun a b : ReplPair => b.1.length ≤ a.1.length)
        (buildReplacements entries)) ∧
    migrateZcmlContent (chars "pull-right")
        (buildReplacements
          [(chars "pull-right", chars "float-end"), (chars "pull", chars "x")]) =
      chars "float-end" ∧
    migrateZcmlContent (chars "pull-right")
        (buildReplacements
          [(chars "pull", chars "x"), (chars "pull-right", chars "float-end")]) =
      chars "float-end" :=
  ⟨buildReplacements_pairwise, by decide, by decide⟩

/-- C4 (counterexample): `load_mappings` keeps both of two entries sharing
`(old_qualifier, old_name)`, and the lookup dict built in
`PloneImportMigrator.__init__` keeps the **last** encountered, not the
first: with entries `A.x → B.y` then `A.x → C.z`, the table maps `(A, x)`
to `C.z`. -/
theorem claim_C4_counterexample :
    loadMappings [(chars "A.x", chars "B.y"), (chars "A.x", chars "C.z")] =
      [⟨chars "A", chars "x", chars "B", chars "y"⟩,
       ⟨chars "A", chars "x", chars "C", chars "z"⟩] ∧
    lookupMp (loadMappings [(chars "A.x", chars "B.y"), (chars "A.x", chars "C.z")])
        (chars "A") (chars "x") =
      some ⟨chars "A", chars "x", chars "C", chars "z"⟩ := by
  constructor
  · decide
  · decide

/-- C4 (amended): the import-rewriting lookup table is deduplicated on
`(old_module, old_name)` with the **last** encountered entry winning: a
lookup returns exactly the last mapping in list order whose key matches. -/
theorem claim_C4_dedup_last_wins (ms : List ImportMapping) (M n : Ident) :
    lookupMp ms M n =
      ms.reverse.find? fun mp => (mp.old_module, mp.old_name) == (M, n) :=
  lookup_buildLookup ms (M, n)

/-- C7 (counterexample): `merge_metadata`'s override test is
`val is not None and val != "" and val != []`, which an **empty dict**
passes: an empty declarative `extras_require` mapping replaces a non-empty
imperative one, so "an empty declarative value never replaces a present
imperative value" fails as stated. -/
theorem claim_C7_counterexample :
    List.lookup "extras_require"
        (mergeMetadata
          [("extras_require", Value.vDict [(Value.vStr "test", Value.vList [Value.vStr "pytest"])])]
          [("extras_require", Value.vDict [])]) =
      some (Value.vDict []) ∧
    Value.vDict [] ≠ Value.vDict [(Value.vStr "test", Value.vList [Value.vStr "pytest"])] := by
  constructor
  · rfl
  · intro h
    injection h with h'
    exact List.noConfusion h'

/-- C7 (amended): on merging, a declarative (setup.cfg) value overrides the
imperative (setup.py) value exactly when it is neither `None`, the empty
string, nor the empty list (`mergeKeeps`); otherwise, and for absent keys,
the imperative value is kept.  Empty mappings and tuples do override. -/
theorem claim_C7_merge_precedence (py cfg : List (String × Value))
    (hcfg : (cfg.map Prod.fst).Nodup) (k : String) :
    List.lookup k (mergeMetadata py cfg) =
      match List.lookup k cfg with
      | some v => if mergeKeeps v then some v else List.lookup k py
      | none => List.lookup k py :=
  lookup_mergeMetadata py cfg hcfg k

/-- C7 (witness): a blocked override (empty string) and a performed
override (non-empty string), via `claim_C7_merge_precedence` at concrete
records. -/
theorem claim_C7_witness :
    List.lookup "name"
        (mergeMetadata [("name", Value.vStr "from-py")] [("name", Value.vStr "")]) =
      some (Value.vStr "from-py") ∧
    List.lookup "version"
        (mergeMetadata [("version", Value.vStr "1.0")] [("version", Value.vStr "2.0")]) =
      some (Value.vStr "2.0") :=
  ⟨claim_C7_merge_precedence [("name", Value.vStr "from-py")]
      [("name", Value.vStr "")] (by decide) "name",
    claim_C7_merge_precedence [("version", Value.vStr "1.0")]
      [("version", Value.vStr "2.0")] (by decide) "version"⟩

/-- C8: the recognized file-read shapes — direct `open(...).read()`,
`Path(...).read_text()`, a helper call with a documentation-like filename,
a `.format` wrapping reads, and `+`-concatenation headed by a read —
evaluate to a `__file__:` sentinel naming the first file, without touching
the file; but the `"sep".join([...])` shape, which the spec and the
repository's own tests (`test_long_description_join_pattern`) expect to
yield `__file__:README.rst`, evaluates to the unresolved sentinel instead
and is surfaced as a warning by `_extract_setup_kwargs`. -/
theorem claim_C8_file_read_shapes :
    evalNode [] (openReadCall "README.rst") = .vStr "__file__:README.rst" ∧
    evalNode [] (pathReadCall "README.rst") = .vStr "__file__:README.rst" ∧
    evalNode [] (readHelperCall "README.rst") = .vStr "__file__:README.rst" ∧
    evalNode [] formatOfReads = .vStr "__file__:README.rst" ∧
    evalNode [] concatOfReads = .vStr "__file__:README.rst" ∧
    evalNode [] joinOfReads = .vUnresolved ∧
    (extractSetupKwargs [] setupKwsJoin).entries =
      [("name", .vStr "my-package")] ∧
    (extractSetupKwargs [] setupKwsJoin).warnings =
      ["Could not resolve value for 'long_description'"] ∧
    (∀ s, Value.vStr s ≠ Value.vUnresolved) :=
  ⟨rfl, rfl, rfl, rfl, rfl, rfl, rfl, rfl, fun _ h => Value.noConfusion h⟩

/-- C9 (counterexample): when `setup.py` has an unresolvable keyword, its
extraction warning is collected *before* the existing-manifest check, so
the skip run returns two warnings, not exactly one. -/
theorem claim_C9_counterexample :
    (migratePackaging
        (some ⟨[("name", Value.vStr "pkg")],
          ["Could not resolve value for 'version'"]⟩)
        none [] false (some ("[project]\nname = \"x\"\n", some ["project"]))
        (fun _ _ _ => "") false).warnings.length = 2 ∧
    (migratePackaging
        (some ⟨[("name", Value.vStr "pkg")],
          ["Could not resolve value for 'version'"]⟩)
        none [] false (some ("[project]\nname = \"x\"\n", some ["project"]))
        (fun _ _ _ => "") false).created = [] ∧
    (migratePackaging
        (some ⟨[("name", Value.vStr "pkg")],
          ["Could not resolve value for 'version'"]⟩)
        none [] false (some ("[project]\nname = \"x\"\n", some ["project"]))
        (fun _ _ _ => "") false).wrote = none :=
  ⟨rfl, rfl, rfl⟩

/-- C9 (amended): against a project whose `pyproject.toml` parses and
already declares `[project]`, the migration creates no file, deletes no
file, writes nothing (the manifest stays byte-for-byte unchanged), and its
warning list is exactly the `setup.py` extraction warnings followed by one
more warning — the skip warning, or the no-input warning when there was
nothing to migrate. -/
theorem claim_C9_skip_existing_manifest
    (setupPy : Option ExtractResult) (setupCfg : Option (List (String × Value)))
    (toolConfigs : List (String × Value)) (manifestInExists : Bool)
    (text : String) (keys : List String)
    (gen : List (String × Value) → Option String →
      Option (List (String × Value)) → String)
    (dryRun : Bool)
    (hk : keys.contains "project" = true) :
    (migratePackaging setupPy setupCfg toolConfigs manifestInExists
        (some (text, some keys)) gen dryRun).created = [] ∧
    (migratePackaging setupPy setupCfg toolConfigs manifestInExists
        (some (text, some keys)) gen dryRun).deleted = [] ∧
    (migratePackaging setupPy setupCfg toolConfigs manifestInExists
        (some (text, some keys)) gen dryRun).wrote = none ∧
    (migratePackaging setupPy setupCfg toolConfigs manifestInExists
        (some (text, some keys)) gen dryRun).warnings =
      (match setupPy with | some r => r.warnings | none => []) ++
        [if (match setupPy with | some r => r.entries | none => []).isEmpty &&
            (match setupCfg with | some d => d | none => []).isEmpty then
          noSetupWarning else skipWarning] := by
  unfold migratePackaging
  by_cases hempty :
      ((match setupPy with | some r => r.entries | none => []).isEmpty &&
        (match setupCfg with | some d => d | none => []).isEmpty) = true
  · simp [hempty]
  · simp only [hempty, Bool.false_eq_true, if_false, hk, if_true]
    simp [Bool.eq_false_iff.2 hempty]

/-- C9 (witness): `claim_C9_skip_existing_manifest` at a concrete project
with clean extraction: exactly one warning, nothing created, deleted or
written. -/
theorem claim_C9_witness :
    (migratePackaging (some ⟨[("name", Value.vStr "pkg")], []⟩) none [] false
        (some ("[project]\nname = \"x\"\n", some ["project"]))
        (fun _ _ _ => "") false).created = [] ∧
    (migratePackaging (some ⟨[("name", Value.vStr "pkg")], []⟩) none [] false
        (some ("[project]\nname = \"x\"\n", some ["project"]))
        (fun _ _ _ => "") false).deleted = [] ∧
    (migratePackaging (some ⟨[("name", Value.vStr "pkg")], []⟩) none [] false
        (some ("[project]\nname = \"x\"\n", some ["project"]))
        (fun _ _ _ => "") false).wrote = none ∧
    (migratePackaging (some ⟨[("name", Value.vStr "pkg")], []⟩) none [] false
        (some ("[project]\nname = \"x\"\n", some ["project"]))
        (fun _ _ _ => "") false).warnings = [] ++ [skipWarning] :=
  claim_C9_skip_existing_manifest (some ⟨[("name", Value.vStr "pkg")], []⟩)
    none [] false "[project]\nname = \"x\"\n" ["project"]
    (fun _ _ _ => "") false (by decide)

/-- `leave_Name` with an empty rename table is the identity on one
identifier. -/
theorem applyRename_nil (s : Ident) : applyRename [] s = s := rfl

/-- `leave_Name` with an empty rename table is the identity on an
expression. -/
theorem renameExpr_nil (e : Expr) : renameExpr [] e = e := by
  induction e <;> simp [renameExpr, applyRename, *]

/-- Mapping `leave_Name` with an empty table over module segments is the
identity. -/
theorem map_applyRename_nil (l : List Ident) : l.map (applyRename []) = l := by
  induction l with
  | nil => rfl
  | cons a t ih => rw [List.map_cons, ih, applyRename_nil]

/-- Mapping `leave_Name` with an empty table over import aliases is the
identity. -/
theorem map_aliasRename_nil (ns : List ImportAlias) :
    ns.map (fun a =>
      (⟨applyRename [] a.name, a.asname.map (applyRename [])⟩ : ImportAlias)) = ns := by
  induction ns with
  | nil => rfl
  | cons a t ih =>
    have ha : (⟨applyRename [] a.name, a.asname.map (applyRename [])⟩ : ImportAlias) = a := by
      cases a with
      | mk n asn => cases asn <;> rfl
    rw [List.map_cons, ih, ha]

/-- `leave_Name` with an empty rename table is the identity on a statement
line. -/
theorem renameStmt_nil (s : PStmt) : renameStmt [] s = s := by
  cases s <;>
    simp only [renameStmt, map_applyRename_nil, map_aliasRename_nil, renameExpr_nil]

/-- The `visit_ImportFrom` fold records nothing when every imported name
looks up to `None`. -/
theorem foldl_visit_none (ms : List ImportMapping) (M : Ident)
    (ns : List ImportAlias)
    (h : ∀ al ∈ ns, lookupMp ms M al.name = none) (r : Renames) :
    ns.foldl
      (fun r al =>
        match lookupMp ms M al.name with
        | some mp =>
          if mp.new_name ≠ mp.old_name ∧ al.asname = none then
            dictInsert al.name mp.new_name r
          else r
        | none => r)
      r = r := by
  induction ns generalizing r with
  | nil => rfl
  | cons a t ih =>
    rw [List.foldl_cons]
    have hl := h a (List.mem_cons_self a t)
    simp only [hl]
    exact ih (fun al hal => h al (List.mem_cons_of_mem a hal)) r

/-- `visit_ImportFrom` records nothing on a statement none of whose
imports matches the table. -/
theorem visitStmt_quiet (ms : List ImportMapping) (r : Renames) (s : PStmt)
    (h : QuietStmt ms s) : visitStmt ms r s = r := by
  cases s with
  | importFrom m ns => exact foldl_visit_none ms (dottedOf m) ns h r
  | importStar m => rfl
  | importFromRel ns => rfl
  | exprStmt e => rfl

/-- `leave_SimpleStatementLine` keeps a statement none of whose imports
matches the table: it returns exactly the updated node. -/
theorem leaveStmt_quiet (ms : List ImportMapping) (s u : PStmt)
    (h : QuietStmt ms s) : leaveStmt ms s u = [u] := by
  cases s with
  | importFrom m ns =>
    have hany : (ns.any fun al => (lookupMp ms (dottedOf m) al.name).isSome) = false := by
      simp only [List.any_eq_false]
      intro al hal
      simp [h al hal]
    simp [leaveStmt, hany]
  | importStar m =>
    have hfind : ms.find? (fun mp => mp.old_module = dottedOf m) = none := by
      rw [List.find?_eq_none]
      intro mp hmp
      simpa using h mp hmp
    simp [leaveStmt, hfind]
  | importFromRel ns => rfl
  | exprStmt e => rfl

/-- The codemod pass is the identity on a module all of whose statement
lines are quiet. -/
theorem transformStmts_quiet (ms : List ImportMapping) (stmts : List PStmt)
    (h : ∀ s ∈ stmts, QuietStmt ms s) : transformStmts ms [] stmts = stmts := by
  induction stmts with
  | nil => rfl
  | cons s rest ih =>
    have hq := h s (List.mem_cons_self s rest)
    show leaveStmt ms s (renameStmt (visitStmt ms [] s) s) ++
        transformStmts ms (visitStmt ms [] s) rest = s :: rest
    rw [visitStmt_quiet ms [] s hq, renameStmt_nil,
      leaveStmt_quiet ms s s hq,
      ih (fun t ht => h t (List.mem_cons_of_mem s ht))]
    rfl

/-- C5: a file containing no mapped name or pattern passes through every
rewriter unchanged: the structured source rewriter returns the parsed
module tree identically (libcst then renders it byte-for-byte), and the
ZCML, page-template and bootstrap text rewriters return the content
byte-for-byte when no old literal occurs in it. -/
theorem claim_C5_noop (ms : List ImportMapping) (stmts : List PStmt)
    (content : List Char) (repls dataAttrs cssCls : List ReplPair)
    (hq : ∀ s ∈ stmts, QuietStmt ms s)
    (hr : ∀ p ∈ repls, ¬ p.1 <:+: content)
    (hb : ∀ p ∈ dataAttrs ++ cssCls, ¬ p.1 <:+: content) :
    transformCode ms stmts = stmts ∧
    migrateZcmlContent content repls = content ∧
    migratePtContent content repls = content ∧
    migrateBootstrapContent content dataAttrs cssCls = content := by
  refine ⟨transformStmts_quiet ms stmts hq,
    foldl_pyReplace_of_no_match hr, foldl_pyReplace_of_no_match hr, ?_⟩
  unfold migrateBootstrapContent
  rw [foldl_pyReplace_of_no_match
      (fun p hp => hb p (List.mem_append_left _ hp)),
    foldl_pyReplace_of_no_match
      (fun p hp => hb p (List.mem_append_right _ hp))]

/-- C5 (witness): `claim_C5_noop` at a module importing only unmapped
names and a content free of the old literals. -/
theorem claim_C5_witness :
    transformCode msSafeUnicode
      [.importFrom [chars "os", chars "path"] [⟨chars "join", none⟩],
       .exprStmt (.call1 (.name (chars "join")) (.name (chars "x")))] =
      [.importFrom [chars "os", chars "path"] [⟨chars "join", none⟩],
       .exprStmt (.call1 (.name (chars "join")) (.name (chars "x")))] ∧
    migrateZcmlContent (chars "<div>nothing here</div>")
      [(chars "Products.CMFPlone.utils", chars "plone.base.utils")] =
      chars "<div>nothing here</div>" ∧
    migratePtContent (chars "<div>nothing here</div>")
      [(chars "Products.CMFPlone.utils", chars "plone.base.utils")] =
      chars "<div>nothing here</div>" ∧
    migrateBootstrapContent (chars "<div>nothing here</div>")
      [(chars "data-pat-old", chars "data-pat-new")]
      [(chars "pull-right", chars "float-end")] =
      chars "<div>nothing here</div>" :=
  claim_C5_noop msSafeUnicode
    [.importFrom [chars "os", chars "path"] [⟨chars "join", none⟩],
     .exprStmt (.call1 (.name (chars "join")) (.name (chars "x")))]
    (chars "<div>nothing here</div>")
    [(chars "Products.CMFPlone.utils", chars "plone.base.utils")]
    [(chars "data-pat-old", chars "data-pat-new")]
    [(chars "pull-right", chars "float-end")]
    (by decide) (by decide) (by decide)

/-- C3 (counterexample): with `safe_unicode → plone.base.utils.safe_text`
and an unaliased import, the codemod's `leave_Name` fires on *every*
`cst.Name` node, so the attribute name in `obj.safe_unicode` and the
keyword-argument name in `f(safe_unicode=x)` are renamed too — the claim
says such non-reference occurrences are never renamed. -/
theorem claim_C3_counterexample :
    transformCode msSafeUnicode
      [.importFrom [chars "Products", chars "CMFPlone", chars "utils"]
         [⟨chars "safe_unicode", none⟩],
       .exprStmt (.attr (.name (chars "obj")) (chars "safe_unicode")),
       .exprStmt (.callKw (.name (chars "f")) (chars "safe_unicode")
         (.name (chars "x")))] =
      [.importFrom [chars "plone", chars "base", chars "utils"]
         [⟨chars "safe_text", none⟩],
       .exprStmt (.attr (.name (chars "obj")) (chars "safe_text")),
       .exprStmt (.callKw (.name (chars "f")) (chars "safe_text")
         (.name (chars "x")))] := by decide

/-- C3 (amended): `leave_Name` renames every `cst.Name` node uniformly:
each Name token of an expression — identifier reference, attribute name or
keyword-argument name alike — is mapped through the rename table; the
expression's shape and the contents of string literals are preserved, so
no arbitrary-substring replacement occurs, but non-reference Name nodes
are not exempt. -/
theorem claim_C3_renames_every_name_token (r : Renames) (e : Expr) :
    nameTokens (renameExpr r e) = (nameTokens e).map (applyRename r) ∧
    skeleton (renameExpr r e) = skeleton e := by
  induction e with
  | name v => exact ⟨rfl, rfl⟩
  | attr e a ih => simp [renameExpr, nameTokens, skeleton, ih.1, ih.2]
  | call1 f a ihf iha =>
    simp [renameExpr, nameTokens, skeleton, ihf.1, ihf.2, iha.1, iha.2]
  | callKw f k a ihf iha =>
    simp [renameExpr, nameTokens, skeleton, ihf.1, ihf.2, iha.1, iha.2]
  | strLit s => exact ⟨rfl, rfl⟩

/-- `s.split(c)` never returns an empty list. -/
theorem splitOnChar_ne_nil (c : Char) (s : List Char) : splitOnChar c s ≠ [] := by
  cases s with
  | nil => simp [splitOnChar]
  | cons x xs =>
    simp only [splitOnChar]
    by_cases hx : x = c
    · simp [hx]
    · rw [if_neg hx]
      cases h : splitOnChar c xs <;> simp

/-- Joining the pieces of `s.split(c)` with `c` restores `s`. -/
theorem joinWithChar_splitOnChar (c : Char) (s : List Char) :
    joinWithChar c (splitOnChar c s) = s := by
  induction s with
  | nil => rfl
  | cons x xs ih =>
    simp only [splitOnChar]
    rcases h : splitOnChar c xs with _ | ⟨y, ys⟩
    · exact absurd h (splitOnChar_ne_nil c xs)
    · rw [h] at ih
      by_cases hx : x = c
      · subst hx
        rw [if_pos rfl]
        exact congrArg (fun t => x :: t) ih
      · rw [if_neg hx]
        cases ys with
        | nil => exact congrArg (fun t => x :: t) ih
        | cons z zs => exact congrArg (fun t => x :: t) ih

/-- A string not containing the separator splits into just itself. -/
theorem splitOnChar_no_sep (c : Char) (s : List Char) (h : c ∉ s) :
    splitOnChar c s = [s] := by
  induction s with
  | nil => rfl
  | cons x xs ih =>
    have hx : ¬ x = c := fun e => h (by rw [← e]; exact List.mem_cons_self x xs)
    have hxs : c ∉ xs := fun hc => h (List.mem_cons_of_mem x hc)
    simp only [splitOnChar, if_neg hx, ih hxs]

/-- Splitting `s ++ c :: t` when `c ∉ s` peels off `s` as the first
piece. -/
theorem splitOnChar_append_sep (c : Char) (s t : List Char) (h : c ∉ s) :
    splitOnChar c (s ++ c :: t) = s :: splitOnChar c t := by
  induction s with
  | nil => simp [splitOnChar]
  | cons x xs ih =>
    have hx : ¬ x = c := fun e => h (by rw [← e]; exact List.mem_cons_self x xs)
    have hxs : c ∉ xs := fun hc => h (List.mem_cons_of_mem x hc)
    rw [List.cons_append]
    simp only [splitOnChar, if_neg hx, ih hxs]

/-- Splitting a join of separator-free non-empty segment list restores the
segments. -/
theorem splitOnChar_joinWithChar (c : Char) :
    ∀ segs : List (List Char), segs ≠ [] → (∀ seg ∈ segs, c ∉ seg) →
      splitOnChar c (joinWithChar c segs) = segs := by
  intro segs
  induction segs with
  | nil => intro hne _; exact absurd rfl hne
  | cons seg rest ih =>
    intro _ hfree
    cases rest with
    | nil => exact splitOnChar_no_sep c seg (hfree seg (List.mem_cons_self seg []))
    | cons s2 rest2 =>
      show splitOnChar c (seg ++ c :: joinWithChar c (s2 :: rest2)) = seg :: s2 :: rest2
      rw [splitOnChar_append_sep c seg _ (hfree seg (List.mem_cons_self _ _)),
        ih (by simp) (fun q hq => hfree q (List.mem_cons_of_mem seg hq))]

/-- `".".join` after `split(".")` restores a dotted path (the round trip
used when `_build_module` re-parses a dotted target module). -/
theorem dottedOf_splitDots (s : Ident) : dottedOf (splitDots s) = s :=
  joinWithChar_splitOnChar '.' s

/-- `split(".")` after joining dot-free segments restores the segments
(the round trip between a module node and its dotted string). -/
theorem splitDots_dottedOf (m : List Ident) (hne : m ≠ [])
    (hfree : ∀ seg ∈ m, '.' ∉ seg) : splitDots (dottedOf m) = m :=
  splitOnChar_joinWithChar '.' m hne hfree

/-- A successful dict lookup pulls its pair from the dict. -/
theorem mem_of_lookup_some {k v : Ident} {l : Renames}
    (h : List.lookup k l = some v) : (k, v) ∈ l := by
  induction l with
  | nil => exact absurd h (by simp)
  | cons kv t ih =>
    obtain ⟨k₀, v₀⟩ := kv
    cases hk : k == k₀ with
    | false =>
      have h' : List.lookup k t = some v := by
        simpa [List.lookup_cons, hk] using h
      exact List.mem_cons_of_mem _ (ih h')
    | true =>
      have hv : v₀ = v := by simpa [List.lookup_cons, hk] using h
      have hkk : k = k₀ := eq_of_beq hk
      subst hv; subst hkk
      exact List.mem_cons_self _ _

/-- A map whose function fixes every member is the identity. -/
theorem map_eq_self_of {α : Type} {f : α → α} {l : List α}
    (h : ∀ a ∈ l, f a = a) : l.map f = l := by
  induction l with
  | nil => rfl
  | cons a t ih =>
    rw [List.map_cons, h a (List.mem_cons_self a t),
      ih fun b hb => h b (List.mem_cons_of_mem a hb)]

/-- Membership after sorted-insertion of a migrated group. -/
theorem mem_insortGroups {p q : Ident × List ImportAlias}
    {l : List (Ident × List ImportAlias)} (h : q ∈ insortGroups p l) :
    q = p ∨ q ∈ l := by
  induction l with
  | nil =>
    simp only [insortGroups, List.mem_singleton] at h
    exact Or.inl h
  | cons a t ih =>
    simp only [insortGroups] at h
    split at h
    · rcases List.mem_cons.1 h with rfl | h2
      · exact Or.inl rfl
      · exact Or.inr h2
    · rcases List.mem_cons.1 h with rfl | h2
      · exact Or.inr (List.mem_cons_self _ _)
      · rcases ih h2 with h3 | h3
        · exact Or.inl h3
        · exact Or.inr (List.mem_cons_of_mem _ h3)

/-- `sorted(migrated.keys())` reorders the groups without inventing new
ones. -/
theorem mem_sortGroups {q : Ident × List ImportAlias}
    {l : List (Ident × List ImportAlias)} (h : q ∈ sortGroups l) : q ∈ l := by
  induction l with
  | nil => simp only [sortGroups] at h; exact absurd h (List.not_mem_nil q)
  | cons p t ih =>
    rcases mem_insortGroups h with rfl | h2
    · exact List.mem_cons_self _ _
    · exact List.mem_cons_of_mem _ (ih h2)

/-- The key of a pair in `groupInsert` is the inserted key or an existing
key. -/
theorem key_mem_groupInsert {k : Ident} {v : ImportAlias}
    {l : List (Ident × List ImportAlias)} {p : Ident × List ImportAlias}
    (h : p ∈ groupInsert k v l) : p.1 = k ∨ p.1 ∈ l.map Prod.fst := by
  induction l with
  | nil =>
    simp only [groupInsert, List.mem_singleton] at h
    subst h; exact Or.inl rfl
  | cons a t ih =>
    obtain ⟨k₀, vs⟩ := a
    simp only [groupInsert] at h
    split at h
    · rename_i heq
      rcases List.mem_cons.1 h with rfl | h2
      · exact Or.inl heq
      · exact Or.inr (by simpa using Or.inr (List.mem_map_of_mem Prod.fst h2))
    · rcases List.mem_cons.1 h with rfl | h2
      · exact Or.inr (by simp)
      · rcases ih h2 with h3 | h3
        · exact Or.inl h3
        · exact Or.inr (by simp [h3])

/-- Every key of the `migrated` defaultdict is the target module of some
table entry. -/
theorem groupMigrated_key {ms : List ImportMapping} {M : Ident}
    {ns : List ImportAlias} {g : Ident × List ImportAlias}
    (h : g ∈ groupMigrated ms M ns) : ∃ mp ∈ ms, g.1 = mp.new_module := by
  suffices H : ∀ acc : List (Ident × List ImportAlias),
      (∀ q ∈ acc, ∃ mp ∈ ms, q.1 = mp.new_module) →
      ∀ p ∈ ns.foldl
        (fun acc al =>
          match lookupMp ms M al.name with
          | some mp => groupInsert mp.new_module ⟨mp.new_name, al.asname⟩ acc
          | none => acc)
        acc, ∃ mp ∈ ms, p.1 = mp.new_module by
    exact H [] (by simp) g h
  clear h
  induction ns with
  | nil => intro acc hacc p hp; exact hacc p hp
  | cons a t ih =>
    intro acc hacc p hp
    rw [List.foldl_cons] at hp
    have hinv : ∀ q ∈ (match lookupMp ms M a.name with
        | some mp => groupInsert mp.new_module ⟨mp.new_name, a.asname⟩ acc
        | none => acc), ∃ mp ∈ ms, q.1 = mp.new_module := by
      intro q hq
      cases hl : lookupMp ms M a.name with
      | none =>
        simp only [hl] at hq
        exact hacc q hq
      | some mp =>
        simp only [hl] at hq
        rcases key_mem_groupInsert hq with h1 | h1
        · obtain ⟨hmem, _, _⟩ := lookupMp_eq_some hl
          exact ⟨mp, hmem, h1⟩
        · obtain ⟨q', hq', hfst⟩ := List.mem_map.1 h1
          obtain ⟨mp', hmp', he⟩ := hacc q' hq'
          exact ⟨mp', hmp', by rw [← hfst]; exact he⟩
    exact ih _ hinv p hp

/-- A module one of whose segments was renamed cannot spell any source
module of the table: the renamed segment is a target name, and no-chain
tables keep target names out of every source module. -/
theorem renamed_module_ne_old (ms : List ImportMapping) (r : Renames)
    (m : List Ident) (hnc : NoChainTargets ms) (hr : RenOK ms r)
    (hwf : WFModule m) (seg : Ident) (hseg : seg ∈ m) (tgt : Ident)
    (hsl : List.lookup seg r = some tgt) :
    ∀ mp ∈ ms, mp.old_module ≠ dottedOf (m.map (applyRename r)) := by
  intro mpo hmem heq
  obtain ⟨mp, hmp, htgt, hneq⟩ := hr (seg, tgt) (mem_of_lookup_some hsl)
  have hfree : ∀ q ∈ m.map (applyRename r), '.' ∉ q := by
    intro q hq
    obtain ⟨s0, hs0, rfl⟩ := List.mem_map.1 hq
    cases hsl0 : List.lookup s0 r with
    | none =>
      simp only [applyRename, hsl0]
      exact hwf.2 s0 hs0
    | some t0 =>
      obtain ⟨mp0, hmp0, ht0, hneq0⟩ := hr (s0, t0) (mem_of_lookup_some hsl0)
      have ht0' : t0 = mp0.new_name := ht0
      simp only [applyRename, hsl0]
      rw [ht0']
      exact (hnc.2 mp0 hmp0 hneq0).1
  have hnil : m.map (applyRename r) ≠ [] :=
    fun h0 => hwf.1 (by simpa using h0)
  have hsplit : splitDots mpo.old_module = m.map (applyRename r) := by
    rw [heq]
    exact splitDots_dottedOf _ hnil hfree
  have hmem_seg : mp.new_name ∈ splitDots mpo.old_module := by
    rw [hsplit]
    refine List.mem_map.2 ⟨seg, hseg, ?_⟩
    simp only [applyRename, hsl]
    exact htgt
  exact ((hnc.2 mp hmp hneq).2 mpo hmem).2 hmem_seg

/-- An imported name with no table entry keeps having no table entry after
`leave_Name` renames the statement, for a no-chain table. -/
theorem renamed_import_lookup_none (ms : List ImportMapping) (r : Renames)
    (m : List Ident) (nm : Ident) (hnc : NoChainTargets ms) (hr : RenOK ms r)
    (hwf : WFModule m) (hq : lookupMp ms (dottedOf m) nm = none) :
    lookupMp ms (dottedOf (m.map (applyRename r))) (applyRename r nm) = none := by
  cases hres : lookupMp ms (dottedOf (m.map (applyRename r))) (applyRename r nm) with
  | none => rfl
  | some mpo =>
    exfalso
    obtain ⟨hmem, hom, hon⟩ := lookupMp_eq_some hres
    cases hnm : List.lookup nm r with
    | some tgt =>
      obtain ⟨mp, hmp, htgt, hneq⟩ := hr (nm, tgt) (mem_of_lookup_some hnm)
      have hcol : mpo.old_name = mp.new_name := by
        rw [hon]
        simp only [applyRename, hnm]
        exact htgt
      exact ((hnc.2 mp hmp hneq).2 mpo hmem).1 hcol.symm
    | none =>
      have hnm_id : applyRename r nm = nm := by simp only [applyRename, hnm]
      by_cases hall : ∀ seg ∈ m, applyRename r seg = seg
      · have hmap : m.map (applyRename r) = m := map_eq_self_of hall
        rw [hmap] at hom
        exact lookupMp_eq_none.1 hq mpo hmem ⟨hom, by rw [hon, hnm_id]⟩
      · push_neg at hall
        obtain ⟨seg, hseg, hne⟩ := hall
        cases hsl : List.lookup seg r with
        | none => exact hne (by simp only [applyRename, hsl])
        | some tgt =>
          exact renamed_module_ne_old ms r m hnc hr hwf seg hseg tgt hsl
            mpo hmem hom

/-- The empty rename table satisfies the rename-table invariant. -/
theorem RenOK_nil (ms : List ImportMapping) : RenOK ms [] :=
  fun kv hkv => absurd hkv (List.not_mem_nil kv)

/-- The `visit_ImportFrom` fold preserves the rename-table invariant: it
only records targets of renaming table entries. -/
theorem RenOK_foldl_visit (ms : List ImportMapping) (M : Ident)
    (ns : List ImportAlias) :
    ∀ r : Renames, RenOK ms r →
      RenOK ms (ns.foldl
        (fun r al =>
          match lookupMp ms M al.name with
          | some mp =>
            if mp.new_name ≠ mp.old_name ∧ al.asname = none then
              dictInsert al.name mp.new_name r
            else r
          | none => r)
        r) := by
  induction ns with
  | nil => intro r h; exact h
  | cons a t ih =>
    intro r h
    rw [List.foldl_cons]
    apply ih
    cases hl : lookupMp ms M a.name with
    | none =>
      simp only [hl]
      exact h
    | some mp =>
      simp only [hl]
      by_cases hc : mp.new_name ≠ mp.old_name ∧ a.asname = none
      · rw [if_pos hc]
        intro kv hkv
        rcases mem_dictInsert hkv with h2 | h2
        · obtain ⟨hmem, _, _⟩ := lookupMp_eq_some hl
          exact ⟨mp, hmem, h2, hc.1⟩
        · exact h kv h2
      · rw [if_neg hc]
        exact h

/-- `visit_ImportFrom` preserves the rename-table invariant. -/
theorem RenOK_visitStmt (ms : List ImportMapping) (r : Renames) (s : PStmt)
    (h : RenOK ms r) : RenOK ms (visitStmt ms r s) := by
  cases s with
  | importFrom m ns => exact RenOK_foldl_visit ms (dottedOf m) ns r h
  | importStar m => exact h
  | importFromRel ns => exact h
  | exprStmt e => exact h

/-- Every statement `leave_SimpleStatementLine` emits is quiet: migrated
imports point at target modules (never sources of a no-chain table), kept
aliases are exactly the unmapped ones, and untouched statements stay
unmapped after renaming. -/
theorem leaveStmt_output_quiet (ms : List ImportMapping) (r : Renames)
    (orig : PStmt) (hnc : NoChainTargets ms) (hr : RenOK ms r)
    (hwf : WFStmt orig) :
    ∀ t ∈ leaveStmt ms orig (renameStmt (visitStmt ms r orig) orig),
      QuietStmt ms t := by
  cases orig with
  | importFrom m ns =>
    by_cases hmatch : (ns.any fun al => (lookupMp ms (dottedOf m) al.name).isSome) = true
    · intro t ht
      simp only [leaveStmt, hmatch, if_true] at ht
      rcases List.mem_append.1 ht with h1 | h1
      · by_cases hk : (ns.filter fun al => (lookupMp ms (dottedOf m) al.name).isNone).isEmpty = true
        · rw [if_pos hk] at h1
          exact absurd h1 (List.not_mem_nil t)
        · rw [if_neg hk, List.mem_singleton] at h1
          subst h1
          intro al hal
          exact Option.isNone_iff_eq_none.1 (List.mem_filter.1 hal).2
      · obtain ⟨g, hg, rfl⟩ := List.mem_map.1 h1
        obtain ⟨mp, hmp, hkey⟩ := groupMigrated_key (mem_sortGroups hg)
        intro al hal
        rw [dottedOf_splitDots, hkey]
        exact lookupMp_eq_none.2
          fun mpo hmpo hco => (hnc.1 mp hmp mpo hmpo) hco.1
    · have hq : ∀ al ∈ ns, lookupMp ms (dottedOf m) al.name = none := by
        intro al hal
        have hf := eq_false_of_ne_true hmatch
        have h2 := List.any_eq_false.1 hf al hal
        cases hopt : lookupMp ms (dottedOf m) al.name with
        | none => rfl
        | some mp => exact absurd (by rw [hopt]; rfl) h2
      have hqs : QuietStmt ms (.importFrom m ns) := hq
      have hvis : visitStmt ms r (.importFrom m ns) = r :=
        visitStmt_quiet ms r _ hqs
      rw [hvis, leaveStmt_quiet ms _ _ hqs]
      intro t ht
      rw [List.mem_singleton] at ht
      subst ht
      show QuietStmt ms (.importFrom (m.map (applyRename r))
        (ns.map fun a => ⟨applyRename r a.name, a.asname.map (applyRename r)⟩))
      intro al hal
      obtain ⟨al0, hal0, rfl⟩ := List.mem_map.1 hal
      exact renamed_import_lookup_none ms r m al0.name hnc hr hwf (hq al0 hal0)
  | importStar m =>
    cases hfind : ms.find? (fun mp => mp.old_module = dottedOf m) with
    | some mp =>
      intro t ht
      simp only [show visitStmt ms r (.importStar m) = r from rfl,
        leaveStmt, hfind] at ht
      rw [List.mem_singleton] at ht
      subst ht
      intro mpo hmem
      rw [dottedOf_splitDots]
      exact hnc.1 mp (List.mem_of_find?_eq_some hfind) mpo hmem
    | none =>
      have hq : ∀ mp ∈ ms, mp.old_module ≠ dottedOf m := by
        intro mp hmp
        simpa using List.find?_eq_none.1 hfind mp hmp
      intro t ht
      simp only [show visitStmt ms r (.importStar m) = r from rfl,
        leaveStmt, hfind] at ht
      rw [List.mem_singleton] at ht
      subst ht
      show QuietStmt ms (.importStar (m.map (applyRename r)))
      intro mpo hmem
      by_cases hall : ∀ seg ∈ m, applyRename r seg = seg
      · rw [show m.map (applyRename r) = m from map_eq_self_of hall]
        exact hq mpo hmem
      · push_neg at hall
        obtain ⟨seg, hseg, hne⟩ := hall
        cases hsl : List.lookup seg r with
        | none => exact absurd (by simp only [applyRename, hsl]) hne
        | some tgt =>
          exact renamed_module_ne_old ms r m hnc hr hwf seg hseg tgt hsl mpo hmem
  | importFromRel ns =>
    intro t ht
    have ht' : t ∈ [renameStmt (visitStmt ms r (.importFromRel ns))
      (.importFromRel ns)] := ht
    rw [List.mem_singleton] at ht'
    subst ht'
    trivial
  | exprStmt e =>
    intro t ht
    have ht' : t ∈ [renameStmt (visitStmt ms r (.exprStmt e))
      (.exprStmt e)] := ht
    rw [List.mem_singleton] at ht'
    subst ht'
    trivial

/-- Every statement a full codemod pass emits is quiet, for a no-chain
table, starting from any invariant-respecting rename table. -/
theorem transformStmts_output_quiet (ms : List ImportMapping)
    (hnc : NoChainTargets ms) :
    ∀ (stmts : List PStmt) (r : Renames), RenOK ms r →
      (∀ s ∈ stmts, WFStmt s) →
      ∀ t ∈ transformStmts ms r stmts, QuietStmt ms t := by
  intro stmts
  induction stmts with
  | nil =>
    intro r _ _ t ht
    exact absurd ht (List.not_mem_nil t)
  | cons s rest ih =>
    intro r hr hwf t ht
    rcases List.mem_append.1 ht with h1 | h1
    · exact leaveStmt_output_quiet ms r s hnc hr
        (hwf s (List.mem_cons_self s rest)) t h1
    · exact ih (visitStmt ms r s) (RenOK_visitStmt ms r s hr)
        (fun q hq => hwf q (List.mem_cons_of_mem s hq)) t h1

/-- C1 (counterexample): with the chained table `A.x → B.y`, `B.y → C.z`
(which `load_mappings` accepts), one pass over `from A import x` yields
`from B import y`, and a second pass rewrites that to `from C import z`:
`transform_code` is not idempotent for every loadable mapping table. -/
theorem claim_C1_counterexample :
    transformCode msChain (transformCode msChain fileChain) ≠
      transformCode msChain fileChain := by decide

/-- C1 (amended): `transform_code` is idempotent on every well-formed
module provided the mapping table is chain-free — no target module is a
source module, and a target name that differs from its source name is
dot-free and collides with no source name or source-module segment.  Every
statement of the first pass's output is then quiet, so the second pass
returns its input tree unchanged. -/
theorem claim_C1_idempotent (ms : List ImportMapping) (stmts : List PStmt)
    (hnc : NoChainTargets ms) (hwf : ∀ s ∈ stmts, WFStmt s) :
    transformCode ms (transformCode ms stmts) = transformCode ms stmts :=
  transformStmts_quiet ms (transformCode ms stmts)
    (fun t ht => transformStmts_output_quiet ms hnc stmts [] (RenOK_nil ms) hwf t ht)

/-- C1 (witness): `claim_C1_idempotent` at the `safe_unicode → safe_text`
table over a module with a matching import and a usage site. -/
theorem claim_C1_witness :
    transformCode msSafeUnicode (transformCode msSafeUnicode
      [.importFrom [chars "Products", chars "CMFPlone", chars "utils"]
         [⟨chars "safe_unicode", none⟩],
       .exprStmt (.call1 (.name (chars "safe_unicode"))
         (.name (chars "value")))]) =
    transformCode msSafeUnicode
      [.importFrom [chars "Products", chars "CMFPlone", chars "utils"]
         [⟨chars "safe_unicode", none⟩],
       .exprStmt (.call1 (.name (chars "safe_unicode"))
         (.name (chars "value")))] :=
  claim_C1_idempotent msSafeUnicode
    [.importFrom [chars "Products", chars "CMFPlone", chars "utils"]
       [⟨chars "safe_unicode", none⟩],
     .exprStmt (.call1 (.name (chars "safe_unicode"))
       (.name (chars "value")))]
    (by decide) (by decide)

end PloneCodemod
